import Mathlib

/-!
# facil.io `fiobj_sym.c`: symbols and their SipHash fingerprint

A shallow embedding of `lib/facil/core/types/fiobj/fiobj_sym.c`.

* `uint64_t` values are natural numbers kept below `2 ^ 64`; every operation that can
  overflow in C (`+=`, `<<`) is followed by an explicit `% 2 ^ 64`.
* A `const void *` is `Option (List Byte)`: `none` is the null pointer, `some bs` a readable
  region holding exactly the bytes `bs`.  Every read is fallible: a read through the null
  pointer or past the end of the region yields `none`, and so does the whole function.
* The two preprocessor branches of `sip_local64` are selected by a `Host` value; the union
  `word` is its eight bytes `word.str`, and `word.i` is their native reading on that host.
* The `while` loop is structurally recursive on a fuel argument; `fiobj_sym_hash` hands it
  `len` units, and the theorems show that this is never used up.
* The symbol API runs on an explicit heap of objects; handles are indices into it.
-/

namespace FiobjSym

/-! ## Machine model -/

/-- One `uint8_t`. -/
abbrev Byte := Fin 256

/-- A `const void *`: the null pointer or a readable region of bytes. -/
abbrev Ptr := Option (List Byte)

/-- The host byte order, as seen by the preprocessor test in front of `sip_local64`:
`big` is the branch taken when `__BYTE_ORDER__ == __ORDER_BIG_ENDIAN__` (and neither
`__BIG_ENDIAN__` nor `__LITTLE_ENDIAN__` is defined), `little` is the `#else` branch. -/
inductive Host where
  | little
  | big
  deriving DecidableEq, Repr

/-- Reads the byte at index `i` behind `data`; `none` when `data` is null or `i` is outside
the region. -/
def read8 (data : Ptr) (i : Nat) : Option Byte :=
  match data with
  | none => none
  | some bs => bs[i]?

/-- Value of a byte string read as one little-endian integer (first byte least significant). -/
def le_value : List Byte → Nat
  | [] => 0
  | b :: bs => b.val + 256 * le_value bs

/-- Value of a byte string read as one big-endian integer (first byte most significant). -/
def be_value (bs : List Byte) : Nat :=
  bs.foldl (fun acc b => acc * 256 + b.val) 0

/-- Native read of a `uint64_t` from the 8 bytes that hold it. -/
def native64 (h : Host) (bytes : List Byte) : Nat :=
  match h with
  | .little => le_value bytes
  | .big => be_value bytes

/-- The dereference `*w64` where `w64` points `off` bytes into `data`: reads the eight bytes
`off .. off + 7` and assembles them in host order. -/
def load64 (h : Host) (data : Ptr) (off : Nat) : Option Nat := do
  let b0 ← read8 data off
  let b1 ← read8 data (off + 1)
  let b2 ← read8 data (off + 2)
  let b3 ← read8 data (off + 3)
  let b4 ← read8 data (off + 4)
  let b5 ← read8 data (off + 5)
  let b6 ← read8 data (off + 6)
  let b7 ← read8 data (off + 7)
  pure (native64 h [b0, b1, b2, b3, b4, b5, b6, b7])

/-! ## Hashing (SipHash copy) -/

/-- The macro `sip_local64(i)`: a 64 bit byte swap on a big-endian host, the identity
otherwise. -/
def sip_local64 (h : Host) (i : Nat) : Nat :=
  match h with
  | .big =>
    (((i &&& 0xFF) <<< 56) % 2 ^ 64) ||| (((i &&& 0xFF00) <<< 40) % 2 ^ 64) |||
      (((i &&& 0xFF0000) <<< 24) % 2 ^ 64) ||| (((i &&& 0xFF000000) <<< 8) % 2 ^ 64) |||
      ((i &&& 0xFF00000000) >>> 8) ||| ((i &&& 0xFF0000000000) >>> 24) |||
      ((i &&& 0xFF000000000000) >>> 40) ||| ((i &&& 0xFF00000000000000) >>> 56)
  | .little => i

/-- The macro `lrot64(i, bits)`: 64 bit left rotation. -/
def lrot64 (i bits : Nat) : Nat :=
  ((i <<< bits) % 2 ^ 64) ||| (i >>> (64 - bits))

/-- The four accumulator words `v0 .. v3` of `fiobj_sym_hash`. -/
structure SipState where
  v0 : Nat
  v1 : Nat
  v2 : Nat
  v3 : Nat
  deriving DecidableEq, Repr

/-- The initial values of the four words. -/
def sip_init : SipState :=
  { v0 := 0x0706050403020100 ^^^ 0x736f6d6570736575
    v1 := 0x0f0e0d0c0b0a0908 ^^^ 0x646f72616e646f6d
    v2 := 0x0706050403020100 ^^^ 0x6c7967656e657261
    v3 := 0x0f0e0d0c0b0a0908 ^^^ 0x7465646279746573 }

/-- The macro `hash_map_SipRound`, statement by statement. -/
def hash_map_SipRound (s : SipState) : SipState :=
  let v0 := s.v0
  let v1 := s.v1
  let v2 := s.v2
  let v3 := s.v3
  let v2 := (v2 + v3) % 2 ^ 64
  let v3 := lrot64 v3 16 ^^^ v2
  let v0 := (v0 + v1) % 2 ^ 64
  let v1 := lrot64 v1 13 ^^^ v0
  let v0 := lrot64 v0 32
  let v2 := (v2 + v1) % 2 ^ 64
  let v0 := (v0 + v3) % 2 ^ 64
  let v1 := lrot64 v1 17 ^^^ v2
  let v3 := lrot64 v3 21 ^^^ v0
  let v2 := lrot64 v2 32
  { v0 := v0, v1 := v1, v2 := v2, v3 := v3 }

/-- The statements `v3 ^= word.i; hash_map_SipRound; hash_map_SipRound; v0 ^= word.i;`
that the loop body and the "last round" share. -/
def sip_absorb (s : SipState) (word : Nat) : SipState :=
  let s := { s with v3 := s.v3 ^^^ word }
  let s := hash_map_SipRound s
  let s := hash_map_SipRound s
  { s with v0 := s.v0 ^^^ word }

/-- The closing statements of `fiobj_sym_hash`: `v2 ^= 0xff;`, four times
`hash_map_SipRound`, then `v0 ^= v1 ^ v2 ^ v3; return v0;`. -/
def sip_finalize (s : SipState) : Nat :=
  let s := { s with v2 := s.v2 ^^^ 0xff }
  let s := hash_map_SipRound s
  let s := hash_map_SipRound s
  let s := hash_map_SipRound s
  let s := hash_map_SipRound s
  s.v0 ^^^ (s.v1 ^^^ s.v2 ^^^ s.v3)

/-- The loop `while (len >= 8) { ... }`.  `off` is the distance of `w64` from `data` in bytes.
The loop is run with `fuel` iterations available; it returns the state, the final `off` and
the final `len`, and `none` when a read faults or the fuel is used up while `len >= 8`. -/
def block_loop (h : Host) (data : Ptr) :
    Nat → SipState → Nat → Nat → Option (SipState × Nat × Nat)
  | 0, s, off, len => if len ≥ 8 then none else some (s, off, len)
  | fuel + 1, s, off, len =>
    if len ≥ 8 then do
      let word ← load64 h data off
      let word := sip_local64 h word
      block_loop h data fuel (sip_absorb s word) (off + 8) (len - 8)
    else some (s, off, len)

/-- The body of the `switch` entered at the label `case k`; the fallthrough is intentional, so
it performs `pos[k-1] = w8[k-1]`, ..., `pos[0] = w8[0]`, where `w8` points `off` bytes
into `data`. -/
def switch_case (data : Ptr) (off : Nat) : Nat → List Byte → Option (List Byte)
  | 0, pos => some pos
  | k + 1, pos => do
    let b ← read8 data (off + k)
    switch_case data off k (pos.set k b)

/-- The statement `switch (len) { case 7: ... case 1: ... }` on the scratch bytes `pos`: only
the labels 1 to 7 exist, every other value of `len` skips the body. -/
def tail_switch (data : Ptr) (off len : Nat) (pos : List Byte) : Option (List Byte) :=
  if 1 ≤ len ∧ len ≤ 7 then switch_case data off len pos else some pos

/-- The function `fiobj_sym_hash(data, len)` on host `h`; `none` stands for a faulting read. -/
def fiobj_sym_hash_on (h : Host) (data : Ptr) (len : Nat) : Option Nat := do
  let len_mod : Byte := Fin.ofNat (len &&& 255)
  let (s, off, len) ← block_loop h data len sip_init 0 len
  -- word.i = 0
  let word : List Byte := [0, 0, 0, 0, 0, 0, 0, 0]
  let word ← tail_switch data off len word
  let word := word.set 7 len_mod
  -- last round
  let s := sip_absorb s (native64 h word)
  -- finalization, d iterations of SipRound, XOR it all together
  pure (sip_finalize s)

/-- The function `fiobj_sym_hash` as compiled for a little-endian host, where `sip_local64`
is the identity. -/
def fiobj_sym_hash (data : Ptr) (len : Nat) : Option Nat :=
  fiobj_sym_hash_on .little data len

/-! ## Symbol API

The objects live in a heap; a `fiobj_s *` is the index of an object in it.  The allocator
`fiobj_alloc`, the object layout of `fiobj_types.h` and the C library formatter `vsnprintf`
are not part of this file of the repository; they are modelled from the specification. -/

/-- Modelled from the spec: the type discriminant readable from any object handle
(`fiobj_type_en` of `fiobj_types.h`), with the symbol kind and the other kinds the
specification names (numbers, strings, arrays, maps) and the null kind. -/
inductive fiobj_type_en where
  | FIOBJ_T_NULL
  | FIOBJ_T_NUMBER
  | FIOBJ_T_STRING
  | FIOBJ_T_SYMBOL
  | FIOBJ_T_ARRAY
  | FIOBJ_T_HASH
  deriving DecidableEq, Repr

/-- Modelled from the spec: an object as it is seen through a `fio_sym_s *`: the type
discriminant every object starts with, followed by the symbol fields `hash` (a `uintptr_t`),
`len` and the buffer `str` of `len + 1` bytes.  For an object of another kind the three
symbol fields stand for whatever its memory holds; the code reads them only after checking
`type`. -/
structure fiobj_s where
  type : fiobj_type_en
  hash : Nat
  len : Nat
  str : List Byte
  deriving DecidableEq, Repr

/-- The state the symbol API runs in. `heap` holds the allocated objects, a `fiobj_s *` being
an index into it; `junk` and `junk_hash` are the contents of memory that `fiobj_alloc` hands
out without initialising it; `hashed` is a ghost counter of the calls to `fiobj_sym_hash`. -/
structure World where
  heap : List fiobj_s
  junk : Nat → Byte
  junk_hash : Nat
  hashed : Nat

/-- The object a non-null `fiobj_s *` points to. -/
def World.deref (w : World) (p : Nat) : Option fiobj_s :=
  w.heap[p]?

/-- The number of bits of a `uintptr_t`; the target is taken to be a 64 bit one. -/
def UINTPTR_BITS : Nat := 64

/-- Conversion of a `uint64_t` to `uintptr_t` (the cast `(uintptr_t)x`, and the implicit
conversion of an assignment to a `uintptr_t` field). -/
def to_uintptr (x : Nat) : Nat :=
  x % 2 ^ UINTPTR_BITS

/-- Modelled from the spec: the allocation primitive `fiobj_alloc(type, len, buffer)`,
which "reserves `length+1` bytes, optionally copies `initial-bytes` into the buffer,
null-terminates, and tags the object with the given kind".  It returns the new handle.
Copying `len` bytes out of a shorter region faults.  Without initial bytes the first `len`
bytes of the buffer, and in every case the `hash` field, keep the uninitialised content
of the memory. -/
def fiobj_alloc (w : World) (type : fiobj_type_en) (len : Nat) (buffer : Ptr) :
    Option (Nat × World) :=
  let content : Option (List Byte) :=
    match buffer with
    | none => some ((List.range len).map w.junk)
    | some bs => if len ≤ bs.length then some (bs.take len) else none
  match content with
  | none => none
  | some c =>
    let obj : fiobj_s := { type := type, hash := w.junk_hash, len := len, str := c ++ [0] }
    some (w.heap.length, { w with heap := w.heap ++ [obj] })

/-- A call of `fiobj_sym_hash(data, len)` from the symbol API: the value of the hash, with
the ghost counter of the world advanced by one. -/
def call_sym_hash (w : World) (data : Ptr) (len : Nat) : Option (Nat × World) := do
  let h ← fiobj_sym_hash data len
  pure (h, { w with hashed := w.hashed + 1 })

/-- The assignment `((fio_sym_s *)(sym))->hash = h`. -/
def store_hash (w : World) (sym : Nat) (h : Nat) : Option World := do
  let obj ← w.deref sym
  pure { w with heap := w.heap.set sym { obj with hash := to_uintptr h } }

/-- The function `fiobj_sym_new(str, len)`: returns the handle of the new symbol. -/
def fiobj_sym_new (w : World) (str : Ptr) (len : Nat) : Option (Nat × World) := do
  let (sym, w) ← fiobj_alloc w .FIOBJ_T_SYMBOL len str
  let (h, w) ← call_sym_hash w str len
  let w ← store_hash w sym (to_uintptr h)
  pure (sym, w)

/-- Modelled from the spec: the formatting subsystem (`vsnprintf` of the C library),
"exposing a dry-run length computation and a write-into-buffer pass, both taking a template
and an argument list, with the convention that a dry-run result `< 0` signals a formatting
error".  `dry_run format argv` is the value of `vsnprintf(NULL, 0, format, argv)`;
`write format argv size` is the bytes that `vsnprintf(buf, size, format, argv)` stores at the
start of `buf`, the terminating NUL included. -/
structure Formatter (Fmt Args : Type) where
  dry_run : Fmt → Args → Int
  write : Fmt → Args → Nat → List Byte

/-- The call `vsnprintf(((fio_sym_s *)(sym))->str, size, format, argv)`: overwrites the start
of the buffer of the object `sym` with the bytes of the real format pass.  Storing more
bytes than the buffer holds faults. -/
def vsnprintf_into (F : Formatter Fmt Args) (w : World) (sym : Nat) (size : Nat)
    (format : Fmt) (argv : Args) : Option World := do
  let obj ← w.deref sym
  let out := F.write format argv size
  if out.length ≤ obj.str.length then
    pure { w with heap := w.heap.set sym { obj with str := out ++ obj.str.drop out.length } }
  else none

/-- The function `fiobj_symvprintf(format, argv)`: the result is `none` for `NULL` and the
handle of the new symbol otherwise. -/
def fiobj_symvprintf (F : Formatter Fmt Args) (w : World) (format : Fmt) (argv : Args) :
    Option (Option Nat × World) := do
  let sym : Option Nat := none
  let len : Int := F.dry_run format argv
  let (sym, w) ←
    if len = 0 then do
      let (p, w) ← fiobj_alloc w .FIOBJ_T_SYMBOL 0 (some [0])
      let (h, w) ← call_sym_hash w none 0
      let w ← store_hash w p h
      pure (some p, w)
    else pure (sym, w)
  if len ≤ 0 then
    pure (sym, w)
  else do
    let (p, w) ← fiobj_alloc w .FIOBJ_T_SYMBOL len.toNat none
    let w ← vsnprintf_into F w p (len.toNat + 1) format argv
    let obj ← w.deref p
    let (h, w) ← call_sym_hash w (some obj.str) len.toNat
    let w ← store_hash w p (to_uintptr h)
    pure (some p, w)

/-- The function `fiobj_symprintf(format, ...)`: collects the variadic arguments and
delegates to `fiobj_symvprintf`. -/
def fiobj_symprintf (F : Formatter Fmt Args) (w : World) (format : Fmt) (argv : Args) :
    Option (Option Nat × World) :=
  fiobj_symvprintf F w format argv

/-- The function `fiobj_sym_iseql(sym1, sym2)`, on the objects the two handles point to. -/
def fiobj_sym_iseql (sym1 sym2 : fiobj_s) : Int :=
  if sym1.type ≠ .FIOBJ_T_SYMBOL ∨ sym2.type ≠ .FIOBJ_T_SYMBOL then 0
  else if sym1.hash = sym2.hash then 1 else 0

/-- The function `fiobj_sym_id(sym)`, on the object the handle points to. -/
def fiobj_sym_id (sym : fiobj_s) : Nat :=
  if sym.type ≠ .FIOBJ_T_SYMBOL then 0
  else sym.hash

/-! ## The reference algorithm of the specification

A second definition of the fingerprint, written from the words of the specification
(section 4.1) on plain byte lists, with no pointers and no reads that can fail. -/

namespace Reference

/-- The "rotate-left" of the specification on a 64 bit word, arithmetically: the low
`64 - k` bits move up by `k` places and the high `k` bits come back in at the bottom. -/
def rotl (x k : Nat) : Nat :=
  (x * 2 ^ k) % 2 ^ 64 + x / 2 ^ (64 - k)

/-- "A single mixing round", in the order the specification lists its steps. -/
def mixing_round (s : SipState) : SipState :=
  let v2 := (s.v2 + s.v3) % 2 ^ 64
  let v3 := rotl s.v3 16 ^^^ v2
  let v0 := (s.v0 + s.v1) % 2 ^ 64
  let v1 := rotl s.v1 13 ^^^ v0
  let v0 := rotl v0 32
  let v2 := (v2 + v1) % 2 ^ 64
  let v0 := (v0 + v3) % 2 ^ 64
  let v1 := rotl v1 17 ^^^ v2
  let v3 := rotl v3 21 ^^^ v0
  let v2 := rotl v2 32
  { v0 := v0, v1 := v1, v2 := v2, v3 := v3 }

/-- "Mix `m` into `v3` (exclusive-or), apply two mixing rounds, then mix `m` into `v0`." -/
def mix_word (s : SipState) (m : Nat) : SipState :=
  let s := mixing_round (mixing_round { s with v3 := s.v3 ^^^ m })
  { s with v0 := s.v0 ^^^ m }

/-- "Process the input in consecutive 8-byte blocks for as long as at least 8 bytes remain":
returns the state after the full blocks and the 0 to 7 bytes that remain. -/
def full_blocks : List Byte → SipState → SipState × List Byte
  | b0 :: b1 :: b2 :: b3 :: b4 :: b5 :: b6 :: b7 :: rest, s =>
    full_blocks rest (mix_word s (le_value [b0, b1, b2, b3, b4, b5, b6, b7]))
  | remaining, s => (s, remaining)

/-- The tail word: the remaining bytes at the low-order byte positions (byte `i` of the word
is the `i`-th remaining byte), zero in between, and `length mod 256` as the high-order
(8th) byte. -/
def tail_word (remaining : List Byte) (length : Nat) : Nat :=
  le_value remaining + (length % 256) * 2 ^ 56

/-- "Finalization: XOR `0xff` into `v2`; apply four mixing rounds", and the output
`v0 ^ v1 ^ v2 ^ v3`. -/
def finalize (s : SipState) : Nat :=
  let s := { s with v2 := s.v2 ^^^ 0xff }
  let s := mixing_round (mixing_round (mixing_round (mixing_round s)))
  s.v0 ^^^ s.v1 ^^^ s.v2 ^^^ s.v3

/-- The fingerprint of a byte sequence as the specification describes it. -/
def fingerprint (b : List Byte) : Nat :=
  let (s, remaining) := full_blocks b sip_init
  finalize (mix_word s (tail_word remaining b.length))

end Reference

/-! ## Standard SipHash-2-4

SipHash-c-d of Aumasson and Bernstein with a 128 bit key, written from its published
description: the message is parsed into little-endian 64 bit words, the last of which
carries the remaining bytes and the message length modulo 256 in its top byte. -/

namespace SipHash

/-- The word `ROTL(x, b)` on 64 bits. -/
def rotl (x b : Nat) : Nat :=
  ((x <<< b) ||| (x >>> (64 - b))) % 2 ^ 64

/-- One SipRound in the standard order. -/
def sipround (s : SipState) : SipState :=
  let v0 := (s.v0 + s.v1) % 2 ^ 64
  let v1 := rotl s.v1 13 ^^^ v0
  let v0 := rotl v0 32
  let v2 := (s.v2 + s.v3) % 2 ^ 64
  let v3 := rotl s.v3 16 ^^^ v2
  let v0 := (v0 + v3) % 2 ^ 64
  let v3 := rotl v3 21 ^^^ v0
  let v2 := (v2 + v1) % 2 ^ 64
  let v1 := rotl v1 17 ^^^ v2
  let v2 := rotl v2 32
  { v0 := v0, v1 := v1, v2 := v2, v3 := v3 }

/-- The key schedule: `k0` and `k1` are the two little-endian halves of the 16 key bytes. -/
def initialise (key : List Byte) : SipState :=
  let k0 := le_value (key.take 8)
  let k1 := le_value ((key.drop 8).take 8)
  { v0 := k0 ^^^ 0x736f6d6570736575
    v1 := k1 ^^^ 0x646f72616e646f6d
    v2 := k0 ^^^ 0x6c7967656e657261
    v3 := k1 ^^^ 0x7465646279746573 }

/-- The message words of an input whose total length is `n`: one little-endian word for every
full 8 byte block, then the last word `(n mod 256) << 56` or-ed with the remaining bytes. -/
def message_words (n : Nat) : List Byte → List Nat
  | b0 :: b1 :: b2 :: b3 :: b4 :: b5 :: b6 :: b7 :: rest =>
    le_value [b0, b1, b2, b3, b4, b5, b6, b7] :: message_words n rest
  | remaining => [((n % 256) <<< 56) ||| le_value remaining]

/-- Compression of one message word with `c` rounds. -/
def compress (c : Nat) (s : SipState) (m : Nat) : SipState :=
  let s := sipround^[c] { s with v3 := s.v3 ^^^ m }
  { s with v0 := s.v0 ^^^ m }

/-- SipHash-c-d of `msg` under `key`. -/
def siphash (c d : Nat) (key msg : List Byte) : Nat :=
  let s := (message_words msg.length msg).foldl (compress c) (initialise key)
  let s := sipround^[d] { s with v2 := s.v2 ^^^ 0xff }
  s.v0 ^^^ s.v1 ^^^ s.v2 ^^^ s.v3

/-- The key bytes `00 01 02 ... 0f`. -/
def key_00_0f : List Byte :=
  [0x00, 0x01, 0x02, 0x03, 0x04, 0x05, 0x06, 0x07, 0x08, 0x09, 0x0a, 0x0b, 0x0c, 0x0d, 0x0e, 0x0f]

/-- SipHash-2-4 of `msg` under `key`. -/
def siphash_2_4 (key msg : List Byte) : Nat :=
  siphash 2 4 key msg

end SipHash

/-! ## Auxiliary definitions for the statements -/

/-- All four words of a state are 64 bit values. -/
def SipState.InRange (s : SipState) : Prop :=
  s.v0 < 2 ^ 64 ∧ s.v1 < 2 ^ 64 ∧ s.v2 < 2 ^ 64 ∧ s.v3 < 2 ^ 64

/-- The symbol value the specification describes for the bytes `b`: of the symbol kind, the
bytes NUL-terminated, their length, and the reference fingerprint. -/
def symbol_of (b : List Byte) : fiobj_s :=
  { type := .FIOBJ_T_SYMBOL, hash := Reference.fingerprint b, len := b.length, str := b ++ [0] }

/-! ## An instance of the formatting subsystem -/

/-- Decimal digits of `n` as ASCII bytes, most significant first (`fuel` bounds the number of
digits). -/
def decimal_digits : Nat → Nat → List Byte
  | 0, _ => []
  | fuel + 1, n =>
    if n < 10 then [Fin.ofNat (48 + n)]
    else decimal_digits fuel (n / 10) ++ [Fin.ofNat (48 + n % 10)]

/-- The text of `%d` for an `int`. -/
def format_int (i : Int) : List Byte :=
  if i < 0 then 45 :: decimal_digits (i.natAbs + 1) i.natAbs
  else decimal_digits (i.natAbs + 1) i.natAbs

/-- Expansion of a template over a list of `int` arguments: `%d` prints the next argument,
`%%` prints a percent sign, every other byte is copied; any other conversion, a `%` at the
end of the template or a missing argument is a formatting error (`none`). -/
def expand_template : List Byte → List Int → Option (List Byte)
  | [], _ => some []
  | [c], _ => if c = 37 then none else some [c]
  | c :: d :: rest, args =>
    if c = 37 then
      if d = 100 then
        match args with
        | [] => none
        | a :: args => (expand_template rest args).map (format_int a ++ ·)
      else if d = 37 then (expand_template rest args).map (37 :: ·)
      else none
    else (expand_template (d :: rest) args).map (c :: ·)

/-- Modelled from the spec: an instance of the formatting subsystem for templates over
`int` arguments, with the return convention of `vsnprintf`: the dry run returns the length of
the expansion, or `-1` on a formatting error; the write pass with buffer size `size` stores
the first `size - 1` bytes of the expansion followed by a NUL. -/
def printf_model : Formatter (List Byte) (List Int) where
  dry_run format argv :=
    match expand_template format argv with
    | none => -1
    | some out => out.length
  write format argv size :=
    match expand_template format argv with
    | none => []
    | some out => if size = 0 then [] else out.take (size - 1) ++ [0]

/-- The world before anything is allocated, all uninitialised memory reading as `fill`. -/
def World.empty (fill : Byte) : World :=
  { heap := [], junk := fun _ => fill, junk_hash := fill.val, hashed := 0 }

/-- The little-endian words of the full 8-byte blocks of a byte sequence, in order. -/
def block_words : List Byte → List Nat
  | b0 :: b1 :: b2 :: b3 :: b4 :: b5 :: b6 :: b7 :: rest =>
    le_value [b0, b1, b2, b3, b4, b5, b6, b7] :: block_words rest
  | _ => []

/-- The words absorbed for the byte sequence `b` of length `n`: the words of its `n / 8` full
blocks, then the tail word made of the bytes after the last full block and of `n mod 256`. -/
def absorbed_words (b : List Byte) : List Nat :=
  block_words b ++ [Reference.tail_word (b.drop (8 * (b.length / 8))) b.length]

/-- The inverse of the mixing round: the ten statements of `hash_map_SipRound` undone from
the last to the first, a rotation to the left by `k` being undone by one by `64 - k`, an
exclusive-or by itself and an addition by the subtraction modulo `2 ^ 64`. -/
def hash_map_SipRound_inv (s : SipState) : SipState :=
  let v0 := s.v0
  let v1 := s.v1
  let v2 := s.v2
  let v3 := s.v3
  let v2 := lrot64 v2 32
  let v3 := lrot64 (v3 ^^^ v0) 43
  let v1 := lrot64 (v1 ^^^ v2) 47
  let v0 := (v0 + 2 ^ 64 - v3) % 2 ^ 64
  let v2 := (v2 + 2 ^ 64 - v1) % 2 ^ 64
  let v0 := lrot64 v0 32
  let v1 := lrot64 (v1 ^^^ v0) 51
  let v0 := (v0 + 2 ^ 64 - v1) % 2 ^ 64
  let v3 := lrot64 (v3 ^^^ v2) 48
  let v2 := (v2 + 2 ^ 64 - v3) % 2 ^ 64
  { v0 := v0, v1 := v1, v2 := v2, v3 := v3 }

/-! ## Words stay in range -/

theorem lrot64_lt (x k : Nat) (hx : x < 2 ^ 64) : lrot64 x k < 2 ^ 64 := by
  unfold lrot64
  apply Nat.or_lt_two_pow
  · exact Nat.mod_lt _ (by norm_num)
  · rw [Nat.shiftRight_eq_div_pow]
    exact lt_of_le_of_lt (Nat.div_le_self _ _) hx

theorem sip_init_inRange : sip_init.InRange := by
  unfold SipState.InRange sip_init
  decide

theorem hash_map_SipRound_inRange (s : SipState) (hs : s.InRange) :
    (hash_map_SipRound s).InRange := by
  obtain ⟨h0, h1, h2, h3⟩ := hs
  have hm : ∀ a : Nat, a % 2 ^ 64 < 2 ^ 64 := fun a => Nat.mod_lt _ (by norm_num)
  refine ⟨?_, ?_, ?_, ?_⟩ <;> simp only [hash_map_SipRound]
  · exact hm _
  · exact Nat.xor_lt_two_pow (lrot64_lt _ _ (Nat.xor_lt_two_pow (lrot64_lt _ _ h1) (hm _))) (hm _)
  · exact lrot64_lt _ _ (hm _)
  · exact Nat.xor_lt_two_pow (lrot64_lt _ _ (Nat.xor_lt_two_pow (lrot64_lt _ _ h3) (hm _))) (hm _)

theorem sip_absorb_inRange (s : SipState) (word : Nat) (hs : s.InRange)
    (hw : word < 2 ^ 64) : (sip_absorb s word).InRange := by
  have h1 : ({ s with v3 := s.v3 ^^^ word } : SipState).InRange :=
    ⟨hs.1, hs.2.1, hs.2.2.1, Nat.xor_lt_two_pow hs.2.2.2 hw⟩
  have h2 := hash_map_SipRound_inRange _ (hash_map_SipRound_inRange _ h1)
  exact ⟨Nat.xor_lt_two_pow h2.1 hw, h2.2.1, h2.2.2.1, h2.2.2.2⟩

theorem le_value_lt (bs : List Byte) : le_value bs < 256 ^ bs.length := by
  induction bs with
  | nil => simp [le_value]
  | cons b bs ih =>
    have hb := b.isLt
    simp only [le_value, List.length_cons, pow_succ]
    nlinarith

theorem le_value_word_lt (b0 b1 b2 b3 b4 b5 b6 b7 : Byte) :
    le_value [b0, b1, b2, b3, b4, b5, b6, b7] < 2 ^ 64 := by
  have h := le_value_lt [b0, b1, b2, b3, b4, b5, b6, b7]
  have e : (256 : Nat) ^ [b0, b1, b2, b3, b4, b5, b6, b7].length = 2 ^ 64 := by
    simp only [List.length_cons, List.length_nil]
    norm_num
  rw [e] at h
  exact h

/-! ## The rotation, three ways -/

theorem lrot64_eq_rotl (x k : Nat) (hx : x < 2 ^ 64) (hk : k ≤ 64) :
    lrot64 x k = Reference.rotl x k := by
  unfold lrot64 Reference.rotl
  rw [Nat.shiftLeft_eq, Nat.shiftRight_eq_div_pow]
  have hsplit : (2 : Nat) ^ 64 = 2 ^ (64 - k) * 2 ^ k := by
    rw [← pow_add]; congr 1; omega
  have hlow : x / 2 ^ (64 - k) < 2 ^ k := by
    apply Nat.div_lt_of_lt_mul
    rw [← hsplit]; exact hx
  have hmul : x * 2 ^ k % 2 ^ 64 = 2 ^ k * (x % 2 ^ (64 - k)) := by
    rw [hsplit, Nat.mul_mod_mul_right, Nat.mul_comm]
  rw [hmul, ← Nat.mul_add_lt_is_or hlow]

theorem siphash_rotl_eq_lrot64 (x b : Nat) (hx : x < 2 ^ 64) :
    SipHash.rotl x b = lrot64 x b := by
  unfold SipHash.rotl lrot64
  have hr : x >>> (64 - b) < 2 ^ 64 := by
    rw [Nat.shiftRight_eq_div_pow]
    exact lt_of_le_of_lt (Nat.div_le_self _ _) hx
  apply Nat.eq_of_testBit_eq
  intro i
  simp only [Nat.testBit_mod_two_pow, Nat.testBit_or]
  by_cases hi : i < 64
  · simp [hi]
  · have hz : (x >>> (64 - b)).testBit i = false :=
      Nat.testBit_lt_two_pow (lt_of_lt_of_le hr (Nat.pow_le_pow_right (by norm_num) (by omega)))
    simp [hi, hz]

/-! ## The mixing round, three ways -/

theorem hash_map_SipRound_eq_mixing_round (s : SipState) (hs : s.InRange) :
    hash_map_SipRound s = Reference.mixing_round s := by
  obtain ⟨h0, h1, h2, h3⟩ := hs
  have hm : ∀ a : Nat, a % 2 ^ 64 < 2 ^ 64 := fun a => Nat.mod_lt _ (by norm_num)
  have r : ∀ x k : Nat, x < 2 ^ 64 → lrot64 x k < 2 ^ 64 := lrot64_lt
  have e13 := lrot64_eq_rotl s.v1 13 h1 (by norm_num)
  have e16 := lrot64_eq_rotl s.v3 16 h3 (by norm_num)
  have e32 := lrot64_eq_rotl ((s.v0 + s.v1) % 2 ^ 64) 32 (hm _) (by norm_num)
  have e17 := lrot64_eq_rotl (lrot64 s.v1 13 ^^^ (s.v0 + s.v1) % 2 ^ 64) 17
    (Nat.xor_lt_two_pow (r _ _ h1) (hm _)) (by norm_num)
  have e21 := lrot64_eq_rotl (lrot64 s.v3 16 ^^^ (s.v2 + s.v3) % 2 ^ 64) 21
    (Nat.xor_lt_two_pow (r _ _ h3) (hm _)) (by norm_num)
  have e32b := lrot64_eq_rotl
    (((s.v2 + s.v3) % 2 ^ 64 + (lrot64 s.v1 13 ^^^ (s.v0 + s.v1) % 2 ^ 64)) % 2 ^ 64) 32
    (hm _) (by norm_num)
  simp only [hash_map_SipRound, Reference.mixing_round]
  rw [e32b, e21, e17, e32, e16, e13]

theorem hash_map_SipRound_eq_sipround (s : SipState) (hs : s.InRange) :
    hash_map_SipRound s = SipHash.sipround s := by
  obtain ⟨h0, h1, h2, h3⟩ := hs
  have hm : ∀ a : Nat, a % 2 ^ 64 < 2 ^ 64 := fun a => Nat.mod_lt _ (by norm_num)
  have r : ∀ x k : Nat, x < 2 ^ 64 → SipHash.rotl x k < 2 ^ 64 := fun x k _ => by
    unfold SipHash.rotl; exact hm _
  have e13 := siphash_rotl_eq_lrot64 s.v1 13 h1
  have e16 := siphash_rotl_eq_lrot64 s.v3 16 h3
  have e32 := siphash_rotl_eq_lrot64 ((s.v0 + s.v1) % 2 ^ 64) 32 (hm _)
  have e17 := siphash_rotl_eq_lrot64 (SipHash.rotl s.v1 13 ^^^ (s.v0 + s.v1) % 2 ^ 64) 17
    (Nat.xor_lt_two_pow (r _ _ h1) (hm _))
  have e21 := siphash_rotl_eq_lrot64 (SipHash.rotl s.v3 16 ^^^ (s.v2 + s.v3) % 2 ^ 64) 21
    (Nat.xor_lt_two_pow (r _ _ h3) (hm _))
  have e32b := siphash_rotl_eq_lrot64
    (((s.v2 + s.v3) % 2 ^ 64 + (SipHash.rotl s.v1 13 ^^^ (s.v0 + s.v1) % 2 ^ 64)) % 2 ^ 64) 32
    (hm _)
  simp only [hash_map_SipRound, SipHash.sipround]
  rw [e32b, e21, e17, e32, e16, e13]

theorem sip_absorb_eq_mix_word (s : SipState) (m : Nat) (hs : s.InRange) (hm : m < 2 ^ 64) :
    sip_absorb s m = Reference.mix_word s m := by
  have h1 : ({ s with v3 := s.v3 ^^^ m } : SipState).InRange :=
    ⟨hs.1, hs.2.1, hs.2.2.1, Nat.xor_lt_two_pow hs.2.2.2 hm⟩
  have h2 := hash_map_SipRound_inRange _ h1
  simp only [sip_absorb, Reference.mix_word]
  rw [hash_map_SipRound_eq_mixing_round _ h1] at h2 ⊢
  rw [hash_map_SipRound_eq_mixing_round _ h2]

theorem sip_absorb_eq_compress (s : SipState) (m : Nat) (hs : s.InRange) (hm : m < 2 ^ 64) :
    sip_absorb s m = SipHash.compress 2 s m := by
  have h1 : ({ s with v3 := s.v3 ^^^ m } : SipState).InRange :=
    ⟨hs.1, hs.2.1, hs.2.2.1, Nat.xor_lt_two_pow hs.2.2.2 hm⟩
  have h2 := hash_map_SipRound_inRange _ h1
  simp only [sip_absorb, SipHash.compress, Function.iterate_succ, Function.iterate_zero,
    Function.comp_apply, id_eq]
  rw [hash_map_SipRound_eq_sipround _ h1] at h2 ⊢
  rw [hash_map_SipRound_eq_sipround _ h2]

theorem sip_finalize_eq_finalize (s : SipState) (hs : s.InRange) :
    sip_finalize s = Reference.finalize s := by
  have hf0 : ({ s with v2 := s.v2 ^^^ 0xff } : SipState).InRange :=
    ⟨hs.1, hs.2.1, Nat.xor_lt_two_pow hs.2.2.1 (by norm_num), hs.2.2.2⟩
  have hf1 := hash_map_SipRound_inRange _ hf0
  have hf2 := hash_map_SipRound_inRange _ hf1
  have hf3 := hash_map_SipRound_inRange _ hf2
  have e1 := hash_map_SipRound_eq_mixing_round _ hf0
  have e2 := hash_map_SipRound_eq_mixing_round _ hf1
  have e3 := hash_map_SipRound_eq_mixing_round _ hf2
  have e4 := hash_map_SipRound_eq_mixing_round _ hf3
  simp only [sip_finalize, Reference.finalize]
  rw [e4, e3, e2, e1]
  simp only [Nat.xor_assoc]

theorem sip_finalize_lt (s : SipState) (hs : s.InRange) : sip_finalize s < 2 ^ 64 := by
  have hf0 : ({ s with v2 := s.v2 ^^^ 0xff } : SipState).InRange :=
    ⟨hs.1, hs.2.1, Nat.xor_lt_two_pow hs.2.2.1 (by norm_num), hs.2.2.2⟩
  have hf4 := hash_map_SipRound_inRange _ (hash_map_SipRound_inRange _
    (hash_map_SipRound_inRange _ (hash_map_SipRound_inRange _ hf0)))
  simp only [sip_finalize]
  exact Nat.xor_lt_two_pow hf4.1
    (Nat.xor_lt_two_pow (Nat.xor_lt_two_pow hf4.2.1 hf4.2.2.1) hf4.2.2.2)

/-! ## The block loop and the tail on a little-endian host -/

theorem read8_append (pre suf : List Byte) (i : Nat) :
    read8 (some (pre ++ suf)) (pre.length + i) = suf[i]? := by
  simp [read8, List.getElem?_append_right]

theorem read8_append_zero (pre suf : List Byte) :
    read8 (some (pre ++ suf)) pre.length = suf[0]? := by
  simpa using read8_append pre suf 0

theorem load64_little (pre rest : List Byte) (b0 b1 b2 b3 b4 b5 b6 b7 : Byte) :
    load64 .little (some (pre ++ b0 :: b1 :: b2 :: b3 :: b4 :: b5 :: b6 :: b7 :: rest))
      pre.length = some (le_value [b0, b1, b2, b3, b4, b5, b6, b7]) := by
  simp [load64, read8_append, read8_append_zero, native64]

theorem block_loop_little (extra : List Byte) (fuel : Nat) :
    ∀ (pre suf : List Byte) (s : SipState), suf.length ≤ fuel → s.InRange →
    ∃ pre1 : List Byte, pre ++ suf = pre1 ++ (Reference.full_blocks suf s).2 ∧
      (Reference.full_blocks suf s).2.length < 8 ∧
      (Reference.full_blocks suf s).1.InRange ∧
      block_loop .little (some (pre ++ suf ++ extra)) fuel s pre.length suf.length =
        some ((Reference.full_blocks suf s).1, pre1.length,
          (Reference.full_blocks suf s).2.length) := by
  induction fuel with
  | zero =>
    intro pre suf s hlen hs
    have : suf = [] := List.eq_nil_of_length_eq_zero (by omega)
    subst this
    exact ⟨pre, by simp [Reference.full_blocks], by simp [Reference.full_blocks],
      by simpa [Reference.full_blocks] using hs, by simp [block_loop, Reference.full_blocks]⟩
  | succ fuel ih =>
    intro pre suf s hlen hs
    rcases suf with _ | ⟨b0, _ | ⟨b1, _ | ⟨b2, _ | ⟨b3, _ | ⟨b4, _ | ⟨b5, _ | ⟨b6, _ | ⟨b7, rest⟩⟩⟩⟩⟩⟩⟩⟩
    case cons.cons.cons.cons.cons.cons.cons.cons =>
      have hw := le_value_word_lt b0 b1 b2 b3 b4 b5 b6 b7
      have hs1 := sip_absorb_inRange s _ hs hw
      have hrest : rest.length ≤ fuel := by simp at hlen; omega
      obtain ⟨pre1, hsplit, hshort, hrange, hloop⟩ :=
        ih (pre ++ [b0, b1, b2, b3, b4, b5, b6, b7]) rest _ hrest hs1
      have hfb : Reference.full_blocks (b0 :: b1 :: b2 :: b3 :: b4 :: b5 :: b6 :: b7 :: rest) s =
          Reference.full_blocks rest (sip_absorb s (le_value [b0, b1, b2, b3, b4, b5, b6, b7])) := by
        rw [Reference.full_blocks, sip_absorb_eq_mix_word s _ hs hw]
      rw [hfb]
      refine ⟨pre1, ?_, hshort, hrange, ?_⟩
      · rw [← hsplit]; simp
      · have hge : (b0 :: b1 :: b2 :: b3 :: b4 :: b5 :: b6 :: b7 :: rest).length ≥ 8 := by simp
        have e0 : pre ++ b0 :: b1 :: b2 :: b3 :: b4 :: b5 :: b6 :: b7 :: rest ++ extra =
            pre ++ b0 :: b1 :: b2 :: b3 :: b4 :: b5 :: b6 :: b7 :: (rest ++ extra) := by simp
        rw [block_loop, if_pos hge, e0, load64_little]
        simp only [Option.bind_eq_bind, Option.some_bind, sip_local64]
        have e1 : pre.length + 8 = (pre ++ [b0, b1, b2, b3, b4, b5, b6, b7]).length := by simp
        have e2 : (b0 :: b1 :: b2 :: b3 :: b4 :: b5 :: b6 :: b7 :: rest).length - 8 =
            rest.length := by simp
        have e3 : pre ++ b0 :: b1 :: b2 :: b3 :: b4 :: b5 :: b6 :: b7 :: (rest ++ extra) =
            (pre ++ [b0, b1, b2, b3, b4, b5, b6, b7]) ++ rest ++ extra := by simp
        rw [e1, e2, e3]
        exact hloop
    all_goals
      exact ⟨pre, by simp [Reference.full_blocks], by simp [Reference.full_blocks],
        by simpa [Reference.full_blocks] using hs, by simp [block_loop, Reference.full_blocks]⟩

theorem len_mod_val (len : Nat) : ((Fin.ofNat (len &&& 255) : Byte) : Nat) = len % 256 := by
  have h : len &&& 255 = len % 256 := Nat.and_pow_two_sub_one_eq_mod len 8
  simp [Fin.ofNat, h]

theorem tail_switch_little (pre remaining extra : List Byte) (hlen : remaining.length < 8) :
    tail_switch (some (pre ++ remaining ++ extra)) pre.length remaining.length
        [0, 0, 0, 0, 0, 0, 0, 0] =
      some (remaining ++ List.replicate (8 - remaining.length) 0) := by
  rw [List.append_assoc]
  rcases remaining with _ | ⟨b0, _ | ⟨b1, _ | ⟨b2, _ | ⟨b3, _ | ⟨b4, _ | ⟨b5, _ | ⟨b6, _ | ⟨b7, rest⟩⟩⟩⟩⟩⟩⟩⟩
  case cons.cons.cons.cons.cons.cons.cons.cons => simp at hlen; omega
  all_goals
    simp [tail_switch, switch_case, read8_append, read8_append_zero, List.replicate]

theorem tail_word_little (remaining : List Byte) (hlen : remaining.length < 8) (n : Nat) :
    native64 .little
        ((remaining ++ List.replicate (8 - remaining.length) 0).set 7 (Fin.ofNat (n &&& 255))) =
      Reference.tail_word remaining n := by
  have hv := len_mod_val n
  rcases remaining with _ | ⟨b0, _ | ⟨b1, _ | ⟨b2, _ | ⟨b3, _ | ⟨b4, _ | ⟨b5, _ | ⟨b6, _ | ⟨b7, rest⟩⟩⟩⟩⟩⟩⟩⟩
  case cons.cons.cons.cons.cons.cons.cons.cons => simp at hlen; omega
  all_goals
    simp only [native64, Reference.tail_word, List.replicate, List.length_cons, List.length_nil,
      List.cons_append, List.nil_append, List.set_cons_succ, List.set_cons_zero, le_value, hv,
      Nat.reduceAdd, Nat.reduceSub, Fin.val_zero]
    omega

theorem tail_word_lt (remaining : List Byte) (hlen : remaining.length < 8) (n : Nat) :
    Reference.tail_word remaining n < 2 ^ 64 := by
  have h1 := le_value_lt remaining
  have h2 : (256 : Nat) ^ remaining.length ≤ 256 ^ 7 :=
    Nat.pow_le_pow_right (by norm_num) (by omega)
  have h3 : n % 256 < 256 := Nat.mod_lt _ (by norm_num)
  unfold Reference.tail_word
  norm_num at h2 ⊢
  omega

/-- On a region whose first bytes are `b` (whatever follows them), the little-endian build
of `fiobj_sym_hash` called with the length of `b` returns, without a fault and without
running out of fuel, the value of the reference algorithm on `b`; the value is a 64 bit
one. -/
theorem hash_eq_reference (b extra : List Byte) :
    fiobj_sym_hash (some (b ++ extra)) b.length = some (Reference.fingerprint b) ∧
      Reference.fingerprint b < 2 ^ 64 := by
  obtain ⟨pre1, hsplit, hshort, hrange, hloop⟩ :=
    block_loop_little extra b.length [] b sip_init (le_refl _) sip_init_inRange
  simp only [List.nil_append, List.length_nil] at hsplit hloop
  have htail := tail_switch_little pre1 _ extra hshort
  rw [← hsplit] at htail
  have hword := tail_word_little _ hshort b.length
  have hw := tail_word_lt _ hshort b.length
  have ha := sip_absorb_inRange _ _ hrange hw
  have hval : sip_finalize (sip_absorb (Reference.full_blocks b sip_init).1
      (Reference.tail_word (Reference.full_blocks b sip_init).2 b.length)) =
      Reference.fingerprint b := by
    rw [sip_finalize_eq_finalize _ ha, sip_absorb_eq_mix_word _ _ hrange hw]
    rfl
  constructor
  · simp only [fiobj_sym_hash, fiobj_sym_hash_on, hloop, Option.bind_eq_bind, Option.some_bind,
      htail, hword, Option.pure_def, hval]
  · rw [← hval]
    exact sip_finalize_lt _ ha

/-! ## Standard SipHash-2-4 and the reference algorithm agree -/

theorem initialise_key_00_0f : SipHash.initialise SipHash.key_00_0f = sip_init := by
  decide

theorem last_word_eq_tail_word (remaining : List Byte) (hlen : remaining.length < 8) (n : Nat) :
    ((n % 256) <<< 56) ||| le_value remaining = Reference.tail_word remaining n := by
  have h1 := le_value_lt remaining
  have h2 : (256 : Nat) ^ remaining.length ≤ 256 ^ 7 :=
    Nat.pow_le_pow_right (by norm_num) (by omega)
  have h3 : le_value remaining < 2 ^ 56 := by
    norm_num at h2 ⊢
    omega
  rw [Nat.shiftLeft_eq, Nat.mul_comm, ← Nat.mul_add_lt_is_or h3, Reference.tail_word]
  ring

theorem sip_finalize_eq_siphash (s : SipState) (hs : s.InRange) :
    sip_finalize s =
      (SipHash.sipround^[4] { s with v2 := s.v2 ^^^ 0xff }).v0 ^^^
        (SipHash.sipround^[4] { s with v2 := s.v2 ^^^ 0xff }).v1 ^^^
        (SipHash.sipround^[4] { s with v2 := s.v2 ^^^ 0xff }).v2 ^^^
        (SipHash.sipround^[4] { s with v2 := s.v2 ^^^ 0xff }).v3 := by
  have hf0 : ({ s with v2 := s.v2 ^^^ 0xff } : SipState).InRange :=
    ⟨hs.1, hs.2.1, Nat.xor_lt_two_pow hs.2.2.1 (by norm_num), hs.2.2.2⟩
  have hf1 := hash_map_SipRound_inRange _ hf0
  have hf2 := hash_map_SipRound_inRange _ hf1
  have hf3 := hash_map_SipRound_inRange _ hf2
  have e1 := hash_map_SipRound_eq_sipround _ hf0
  have e2 := hash_map_SipRound_eq_sipround _ hf1
  have e3 := hash_map_SipRound_eq_sipround _ hf2
  have e4 := hash_map_SipRound_eq_sipround _ hf3
  simp only [sip_finalize, Function.iterate_succ, Function.iterate_zero, Function.comp_apply,
    id_eq]
  rw [e4, e3, e2, e1]
  simp only [Nat.xor_assoc]

theorem foldl_message_words (n : Nat) : ∀ (k : Nat) (b : List Byte) (s : SipState),
    b.length ≤ k → s.InRange →
    (SipHash.message_words n b).foldl (SipHash.compress 2) s =
      sip_absorb (Reference.full_blocks b s).1 (Reference.tail_word (Reference.full_blocks b s).2 n) ∧
    (Reference.full_blocks b s).1.InRange ∧ (Reference.full_blocks b s).2.length < 8 := by
  intro k
  induction k with
  | zero =>
    intro b s hlen hs
    have : b = [] := List.eq_nil_of_length_eq_zero (by omega)
    subst this
    have hw := tail_word_lt [] (by simp) n
    refine ⟨?_, by simpa [Reference.full_blocks] using hs, by simp [Reference.full_blocks]⟩
    simp only [SipHash.message_words, Reference.full_blocks, List.foldl_cons, List.foldl_nil]
    rw [last_word_eq_tail_word [] (by simp) n, sip_absorb_eq_compress _ _ hs hw]
  | succ k ih =>
    intro b s hlen hs
    rcases b with _ | ⟨b0, _ | ⟨b1, _ | ⟨b2, _ | ⟨b3, _ | ⟨b4, _ | ⟨b5, _ | ⟨b6, _ | ⟨b7, rest⟩⟩⟩⟩⟩⟩⟩⟩
    case cons.cons.cons.cons.cons.cons.cons.cons =>
      have hw := le_value_word_lt b0 b1 b2 b3 b4 b5 b6 b7
      have hs1 := sip_absorb_inRange s _ hs hw
      have hrest : rest.length ≤ k := by simp at hlen; omega
      have hfb : Reference.full_blocks (b0 :: b1 :: b2 :: b3 :: b4 :: b5 :: b6 :: b7 :: rest) s =
          Reference.full_blocks rest (sip_absorb s (le_value [b0, b1, b2, b3, b4, b5, b6, b7])) := by
        rw [Reference.full_blocks, sip_absorb_eq_mix_word s _ hs hw]
      rw [hfb, SipHash.message_words, List.foldl_cons, ← sip_absorb_eq_compress _ _ hs hw]
      exact ih rest _ hrest hs1
    all_goals
      refine ⟨?_, by simpa [Reference.full_blocks] using hs, by simp [Reference.full_blocks]⟩
      simp only [SipHash.message_words, Reference.full_blocks, List.foldl_cons, List.foldl_nil]
      rw [last_word_eq_tail_word _ (by simp) n,
        sip_absorb_eq_compress _ _ hs (tail_word_lt _ (by simp) n)]

/-- Standard SipHash-2-4 under the key `00 01 ... 0f` computes the reference fingerprint. -/
theorem siphash_eq_reference (b : List Byte) :
    SipHash.siphash_2_4 SipHash.key_00_0f b = Reference.fingerprint b := by
  obtain ⟨hfold, hrange, hshort⟩ :=
    foldl_message_words b.length b.length b sip_init (le_refl _) sip_init_inRange
  have hw := tail_word_lt _ hshort b.length
  have ha := sip_absorb_inRange _ _ hrange hw
  have h1 := sip_finalize_eq_siphash _ ha
  have h2 := sip_finalize_eq_finalize _ ha
  simp only [SipHash.siphash_2_4, SipHash.siphash, initialise_key_00_0f, hfold]
  rw [← h1, h2, sip_absorb_eq_mix_word _ _ hrange hw]
  rfl

/-! ## The symbol API -/

theorem to_uintptr_of_lt (x : Nat) (hx : x < 2 ^ 64) : to_uintptr x = x := by
  unfold to_uintptr UINTPTR_BITS
  exact Nat.mod_eq_of_lt hx

theorem heap_deref_first (heap : List fiobj_s) (x y : fiobj_s) :
    (heap ++ [x] ++ [y])[heap.length]? = some x := by
  rw [List.getElem?_append_left (by simp), List.getElem?_concat_length]

theorem store_hash_last (w : World) (obj : fiobj_s) (h : Nat) (hh : h < 2 ^ 64) :
    store_hash { w with heap := w.heap ++ [obj] } w.heap.length h =
      some { w with heap := w.heap ++ [{ obj with hash := h }] } := by
  simp [store_hash, World.deref, to_uintptr_of_lt h hh]

theorem fiobj_sym_new_eq (w : World) (b extra : List Byte) :
    fiobj_sym_new w (some (b ++ extra)) b.length =
      some (w.heap.length,
        { w with heap := w.heap ++ [symbol_of b], hashed := w.hashed + 1 }) := by
  obtain ⟨hh, hlt⟩ := hash_eq_reference b extra
  have hs := store_hash_last { w with hashed := w.hashed + 1 }
    { type := .FIOBJ_T_SYMBOL, hash := w.junk_hash, len := b.length, str := b ++ [0] }
    (Reference.fingerprint b) hlt
  simp only [fiobj_sym_new, fiobj_alloc, call_sym_hash, hh, Option.bind_eq_bind,
    Option.some_bind, Option.pure_def, List.length_append, Nat.le_add_right, if_true,
    List.take_left', to_uintptr_of_lt _ hlt]
  simp only [symbol_of]
  rw [hs]
  rfl

theorem hash_null_zero :
    fiobj_sym_hash none 0 = some (Reference.fingerprint []) ∧
      Reference.fingerprint [] < 2 ^ 64 := by
  decide

theorem fiobj_symvprintf_negative (F : Formatter Fmt Args) (w : World) (format : Fmt)
    (argv : Args) (hneg : F.dry_run format argv < 0) :
    fiobj_symvprintf F w format argv = some (none, w) := by
  have h0 : F.dry_run format argv ≠ 0 := by omega
  have h1 : F.dry_run format argv ≤ 0 := by omega
  simp [fiobj_symvprintf, h0, h1]

theorem fiobj_symvprintf_zero (F : Formatter Fmt Args) (w : World) (format : Fmt)
    (argv : Args) (hzero : F.dry_run format argv = 0) :
    fiobj_symvprintf F w format argv =
      some (some w.heap.length,
        { w with heap := w.heap ++ [symbol_of []], hashed := w.hashed + 1 }) := by
  obtain ⟨hh, hlt⟩ := hash_null_zero
  have hs := store_hash_last { w with hashed := w.hashed + 1 }
    { type := .FIOBJ_T_SYMBOL, hash := w.junk_hash, len := 0, str := [0] }
    (Reference.fingerprint []) hlt
  simp only [List.length_nil] at hs
  simp only [fiobj_symvprintf, hzero, fiobj_alloc, call_sym_hash, hh, if_true,
    Option.bind_eq_bind, Option.some_bind, Option.pure_def, List.length_cons, List.length_nil,
    Nat.zero_le, List.take_zero, List.nil_append, le_refl]
  rw [hs]
  rfl

theorem fiobj_symvprintf_positive (F : Formatter Fmt Args) (w : World) (format : Fmt)
    (argv : Args) (out : List Byte) (hpos : 0 < F.dry_run format argv)
    (hlen : (out.length : Int) = F.dry_run format argv)
    (hwrite : F.write format argv (out.length + 1) = out ++ [0]) :
    fiobj_symvprintf F w format argv =
      some (some w.heap.length,
        { w with heap := w.heap ++ [symbol_of out], hashed := w.hashed + 1 }) := by
  obtain ⟨hh, hlt⟩ := hash_eq_reference out [0]
  have h0 : F.dry_run format argv ≠ 0 := by omega
  have h1 : ¬ F.dry_run format argv ≤ 0 := by omega
  have h2 : (F.dry_run format argv).toNat = out.length := by omega
  have hs := store_hash_last { w with hashed := w.hashed + 1 }
    { type := .FIOBJ_T_SYMBOL, hash := w.junk_hash, len := out.length, str := out ++ [0] }
    (Reference.fingerprint out) hlt
  have hdrop : List.drop (out.length + 1) (List.map w.junk (List.range out.length) ++ [0]) =
      [] := by
    apply List.drop_eq_nil_of_le
    simp
  dsimp only at hs
  simp only [fiobj_symvprintf, h0, h1, h2, if_false, fiobj_alloc, vsnprintf_into, World.deref,
    Option.bind_eq_bind, Option.some_bind, Option.pure_def, hwrite]
  simp only [List.getElem?_concat_length, Option.some_bind, List.length_append, List.length_map,
    List.length_range, List.length_cons, List.length_nil, le_refl, if_true, hdrop,
    List.append_nil, List.set_append_right, Nat.sub_self, List.set_cons_zero, Nat.zero_add,
    call_sym_hash, hh, Option.bind_eq_bind, Option.pure_def, to_uintptr_of_lt _ hlt]
  rw [hs]
  rfl

/-! ## The mixing round is invertible -/

theorem rotl_cancel (x k j : Nat) (hx : x < 2 ^ 64) (hkj : k + j = 64) :
    Reference.rotl (Reference.rotl x k) j = x := by
  have hk : 64 - k = j := by omega
  have hj : 64 - j = k := by omega
  have hsplit : (2 : Nat) ^ 64 = 2 ^ j * 2 ^ k := by
    rw [← pow_add]; congr 1; omega
  have hsplit2 : (2 : Nat) ^ 64 = 2 ^ k * 2 ^ j := by
    rw [hsplit, Nat.mul_comm]
  have hpos : 0 < (2 : Nat) ^ k := Nat.pow_pos (by norm_num)
  have hhi : x / 2 ^ j < 2 ^ k := by
    apply Nat.div_lt_of_lt_mul
    rw [← hsplit]; exact hx
  have h1 : Reference.rotl x k = x % 2 ^ j * 2 ^ k + x / 2 ^ j := by
    unfold Reference.rotl
    rw [hk, hsplit, Nat.mul_mod_mul_right]
  rw [h1]
  unfold Reference.rotl
  rw [hj, hsplit2, Nat.mul_mod_mul_right, Nat.mul_add_mod_of_lt hhi,
    Nat.add_comm (x % 2 ^ j * 2 ^ k), Nat.add_mul_div_right _ _ hpos,
    Nat.div_eq_of_lt hhi, Nat.zero_add]
  exact Nat.div_add_mod' x (2 ^ j)

theorem lrot64_cancel (x k j : Nat) (hx : x < 2 ^ 64) (hkj : k + j = 64) :
    lrot64 (lrot64 x k) j = x := by
  rw [lrot64_eq_rotl _ j (lrot64_lt x k hx) (by omega), lrot64_eq_rotl x k hx (by omega)]
  exact rotl_cancel x k j hx hkj

theorem add_sub_cancel_u64 (a b : Nat) (ha : a < 2 ^ 64) (hb : b < 2 ^ 64) :
    ((a + b) % 2 ^ 64 + 2 ^ 64 - b) % 2 ^ 64 = a := by
  norm_num at ha hb ⊢
  omega

theorem sub_add_cancel_u64 (a b : Nat) (ha : a < 2 ^ 64) (hb : b < 2 ^ 64) :
    ((a + 2 ^ 64 - b) % 2 ^ 64 + b) % 2 ^ 64 = a := by
  norm_num at ha hb ⊢
  omega

theorem hash_map_SipRound_inv_inRange (s : SipState) (hs : s.InRange) :
    (hash_map_SipRound_inv s).InRange := by
  have hm : ∀ a : Nat, a % 2 ^ 64 < 2 ^ 64 := fun a => Nat.mod_lt _ (by norm_num)
  refine ⟨?_, ?_, ?_, ?_⟩ <;> simp only [hash_map_SipRound_inv]
  · exact hm _
  · exact lrot64_lt _ _ (Nat.xor_lt_two_pow
      (lrot64_lt _ _ (Nat.xor_lt_two_pow hs.2.1 (lrot64_lt _ _ hs.2.2.1)))
      (lrot64_lt _ _ (hm _)))
  · exact hm _
  · exact lrot64_lt _ _ (Nat.xor_lt_two_pow
      (lrot64_lt _ _ (Nat.xor_lt_two_pow hs.2.2.2 hs.1)) (hm _))

theorem hash_map_SipRound_inv_left (s : SipState) (hs : s.InRange) :
    hash_map_SipRound_inv (hash_map_SipRound s) = s := by
  obtain ⟨v0, v1, v2, v3⟩ := s
  obtain ⟨h0, h1, h2, h3⟩ := hs
  simp only at h0 h1 h2 h3
  have hm : ∀ a : Nat, a % 2 ^ 64 < 2 ^ 64 := fun a => Nat.mod_lt _ (by norm_num)
  have hx : ∀ a b : Nat, a < 2 ^ 64 → b < 2 ^ 64 → a ^^^ b < 2 ^ 64 :=
    fun a b ha hb => Nat.xor_lt_two_pow ha hb
  have c32 : ∀ x : Nat, x < 2 ^ 64 → lrot64 (lrot64 x 32) 32 = x :=
    fun x hx => lrot64_cancel x 32 32 hx rfl
  have c21 : ∀ x : Nat, x < 2 ^ 64 → lrot64 (lrot64 x 21) 43 = x :=
    fun x hx => lrot64_cancel x 21 43 hx rfl
  have c17 : ∀ x : Nat, x < 2 ^ 64 → lrot64 (lrot64 x 17) 47 = x :=
    fun x hx => lrot64_cancel x 17 47 hx rfl
  have c13 : ∀ x : Nat, x < 2 ^ 64 → lrot64 (lrot64 x 13) 51 = x :=
    fun x hx => lrot64_cancel x 13 51 hx rfl
  have c16 : ∀ x : Nat, x < 2 ^ 64 → lrot64 (lrot64 x 16) 48 = x :=
    fun x hx => lrot64_cancel x 16 48 hx rfl
  have hr : ∀ x k : Nat, x < 2 ^ 64 → lrot64 x k < 2 ^ 64 := lrot64_lt
  have hsub : ∀ a b : Nat, a < 2 ^ 64 → b < 2 ^ 64 →
      ((a + b) % 2 ^ 64 + 2 ^ 64 - b) % 2 ^ 64 = a := add_sub_cancel_u64
  have ha3 : lrot64 v3 16 ^^^ (v2 + v3) % 2 ^ 64 < 2 ^ 64 := hx _ _ (hr _ _ h3) (hm _)
  have ha1 : lrot64 v1 13 ^^^ (v0 + v1) % 2 ^ 64 < 2 ^ 64 := hx _ _ (hr _ _ h1) (hm _)
  have hb0 : lrot64 ((v0 + v1) % 2 ^ 64) 32 < 2 ^ 64 := hr _ _ (hm _)
  simp only [hash_map_SipRound, hash_map_SipRound_inv, Nat.xor_cancel_right, c32, c21, c17,
    c13, c16, hsub, hm, ha3, ha1, hb0, h0, h1, h2, h3]

theorem hash_map_SipRound_inv_right (s : SipState) (hs : s.InRange) :
    hash_map_SipRound (hash_map_SipRound_inv s) = s := by
  obtain ⟨w0, w1, w2, w3⟩ := s
  obtain ⟨h0, h1, h2, h3⟩ := hs
  simp only at h0 h1 h2 h3
  have hm : ∀ a : Nat, a % 2 ^ 64 < 2 ^ 64 := fun a => Nat.mod_lt _ (by norm_num)
  have hx : ∀ a b : Nat, a < 2 ^ 64 → b < 2 ^ 64 → a ^^^ b < 2 ^ 64 :=
    fun a b ha hb => Nat.xor_lt_two_pow ha hb
  have hr : ∀ x k : Nat, x < 2 ^ 64 → lrot64 x k < 2 ^ 64 := lrot64_lt
  have c32 : ∀ x : Nat, x < 2 ^ 64 → lrot64 (lrot64 x 32) 32 = x :=
    fun x hx => lrot64_cancel x 32 32 hx rfl
  have c21 : ∀ x : Nat, x < 2 ^ 64 → lrot64 (lrot64 x 43) 21 = x :=
    fun x hx => lrot64_cancel x 43 21 hx rfl
  have c17 : ∀ x : Nat, x < 2 ^ 64 → lrot64 (lrot64 x 47) 17 = x :=
    fun x hx => lrot64_cancel x 47 17 hx rfl
  have c13 : ∀ x : Nat, x < 2 ^ 64 → lrot64 (lrot64 x 51) 13 = x :=
    fun x hx => lrot64_cancel x 51 13 hx rfl
  have c16 : ∀ x : Nat, x < 2 ^ 64 → lrot64 (lrot64 x 48) 16 = x :=
    fun x hx => lrot64_cancel x 48 16 hx rfl
  have hadd : ∀ a b : Nat, a < 2 ^ 64 → b < 2 ^ 64 →
      ((a + 2 ^ 64 - b) % 2 ^ 64 + b) % 2 ^ 64 = a := sub_add_cancel_u64
  have f1 := hr _ 32 h2
  have f2 := hx _ _ h1 f1
  have f3 := hr _ 47 f2
  have f4 := hx _ _ h3 h0
  have f5 := hr _ 43 f4
  have f6 := hr _ 32 (hm (w0 + 2 ^ 64 - lrot64 (w3 ^^^ w0) 43))
  have f7 := hx _ _ f3 f6
  have f8 := hr _ 51 f7
  have f9 := hx _ _ f5 (hm (lrot64 w2 32 + 2 ^ 64 - lrot64 (w1 ^^^ lrot64 w2 32) 47))
  have f10 := hr _ 48 f9
  simp only [hash_map_SipRound, hash_map_SipRound_inv, Nat.xor_cancel_right, c32, c21, c17,
    c13, c16, hadd, hm, f1, f2, f3, f4, f5, f6, f7, f8, f9, f10, h0, h1, h2, h3]

theorem hash_map_SipRound_injective (s t : SipState) (hs : s.InRange) (ht : t.InRange)
    (heq : hash_map_SipRound s = hash_map_SipRound t) : s = t := by
  rw [← hash_map_SipRound_inv_left s hs, ← hash_map_SipRound_inv_left t ht, heq]

theorem sip_absorb_injective (s t : SipState) (m : Nat) (hs : s.InRange) (ht : t.InRange)
    (hm : m < 2 ^ 64) (heq : sip_absorb s m = sip_absorb t m) : s = t := by
  have hs1 : ({ s with v3 := s.v3 ^^^ m } : SipState).InRange :=
    ⟨hs.1, hs.2.1, hs.2.2.1, Nat.xor_lt_two_pow hs.2.2.2 hm⟩
  have ht1 : ({ t with v3 := t.v3 ^^^ m } : SipState).InRange :=
    ⟨ht.1, ht.2.1, ht.2.2.1, Nat.xor_lt_two_pow ht.2.2.2 hm⟩
  have hs2 := hash_map_SipRound_inRange _ hs1
  have ht2 := hash_map_SipRound_inRange _ ht1
  simp only [sip_absorb, SipState.mk.injEq] at heq
  obtain ⟨e0, e1, e2, e3⟩ := heq
  have e0' := Nat.xor_left_inj.mp e0
  have hround : hash_map_SipRound (hash_map_SipRound { s with v3 := s.v3 ^^^ m }) =
      hash_map_SipRound (hash_map_SipRound { t with v3 := t.v3 ^^^ m }) := by
    cases hA : hash_map_SipRound (hash_map_SipRound { s with v3 := s.v3 ^^^ m })
    cases hB : hash_map_SipRound (hash_map_SipRound { t with v3 := t.v3 ^^^ m })
    rw [hA] at e0' e1 e2 e3
    rw [hB] at e0' e1 e2 e3
    simp only at e0' e1 e2 e3
    rw [e0', e1, e2, e3]
  have hin := hash_map_SipRound_injective _ _ hs1 ht1
    (hash_map_SipRound_injective _ _ hs2 ht2 hround)
  obtain ⟨s0, s1, s2, s3⟩ := s
  obtain ⟨t0, t1, t2, t3⟩ := t
  simp only [SipState.mk.injEq] at hin ⊢
  exact ⟨hin.1, hin.2.1, hin.2.2.1, Nat.xor_left_inj.mp hin.2.2.2⟩

/-! ## The words that are absorbed -/

theorem full_blocks_words : ∀ (k : Nat) (b : List Byte) (s : SipState),
    b.length ≤ k → s.InRange →
    (Reference.full_blocks b s).1 = (block_words b).foldl sip_absorb s ∧
      (Reference.full_blocks b s).2 = b.drop (8 * (b.length / 8)) ∧
      (block_words b).length = b.length / 8 := by
  intro k
  induction k with
  | zero =>
    intro b s hlen hs
    have : b = [] := List.eq_nil_of_length_eq_zero (by omega)
    subst this
    simp [Reference.full_blocks, block_words]
  | succ k ih =>
    intro b s hlen hs
    rcases b with _ | ⟨b0, _ | ⟨b1, _ | ⟨b2, _ | ⟨b3, _ | ⟨b4, _ | ⟨b5, _ | ⟨b6, _ | ⟨b7, rest⟩⟩⟩⟩⟩⟩⟩⟩
    case cons.cons.cons.cons.cons.cons.cons.cons =>
      have hw := le_value_word_lt b0 b1 b2 b3 b4 b5 b6 b7
      have hs1 := sip_absorb_inRange s _ hs hw
      have hrest : rest.length ≤ k := by simp at hlen; omega
      obtain ⟨i1, i2, i3⟩ := ih rest _ hrest hs1
      have hdiv : (b0 :: b1 :: b2 :: b3 :: b4 :: b5 :: b6 :: b7 :: rest).length / 8 =
          rest.length / 8 + 1 := by
        simp only [List.length_cons]
        omega
      have hmul : 8 * (rest.length / 8 + 1) = 8 * (rest.length / 8) + 8 := by ring
      rw [Reference.full_blocks, ← sip_absorb_eq_mix_word s _ hs hw, block_words,
        List.foldl_cons, hdiv, hmul, List.length_cons, i3]
      refine ⟨i1, ?_, rfl⟩
      rw [i2]
      rfl
    all_goals simp [Reference.full_blocks, block_words]

theorem hash_eq_absorbed_words (b : List Byte) :
    fiobj_sym_hash (some b) b.length =
        some (sip_finalize ((absorbed_words b).foldl sip_absorb sip_init)) ∧
      (absorbed_words b).length = b.length / 8 + 1 := by
  obtain ⟨i1, i2, i3⟩ := full_blocks_words b.length b sip_init (le_refl _) sip_init_inRange
  obtain ⟨pre1, hsplit, hshort, hrange, hloop⟩ :=
    block_loop_little [] b.length [] b sip_init (le_refl _) sip_init_inRange
  have hw := tail_word_lt _ hshort b.length
  have ha := sip_absorb_inRange _ _ hrange hw
  have hh := (hash_eq_reference b []).1
  rw [List.append_nil] at hh
  constructor
  · rw [hh, absorbed_words, List.foldl_append, List.foldl_cons, List.foldl_nil, ← i1, ← i2,
      sip_finalize_eq_finalize _ ha, sip_absorb_eq_mix_word _ _ hrange hw]
    rfl
  · rw [absorbed_words, List.length_append, i3]
    rfl

/-! ## Collisions exist -/

/-- There are more byte sequences of length 9 than 64 bit values, so two different ones have
the same reference fingerprint. -/
theorem fingerprint_collision :
    ∃ b1 b2 : List Byte, b1.length = 9 ∧ b2.length = 9 ∧ b1 ≠ b2 ∧
      Reference.fingerprint b1 = Reference.fingerprint b2 := by
  let f : (Fin 9 → Byte) → Fin (2 ^ 64) := fun v =>
    ⟨Reference.fingerprint (List.ofFn v), (hash_eq_reference (List.ofFn v) []).2⟩
  have hcard : Fintype.card (Fin (2 ^ 64)) < Fintype.card (Fin 9 → Byte) := by
    rw [Fintype.card_fin, Fintype.card_fun, Fintype.card_fin, Fintype.card_fin]
    norm_num
  obtain ⟨v1, v2, hne, heq⟩ := Fintype.exists_ne_map_eq_of_card_lt f hcard
  refine ⟨List.ofFn v1, List.ofFn v2, by simp, by simp, ?_, ?_⟩
  · intro h
    exact hne (List.ofFn_injective h)
  · exact congrArg Fin.val heq

/-! ## The claims -/

/-- C1: for every byte sequence `b`, `fiobj_sym_hash(b, n)` with `n` the length of `b` returns
(without a fault) the value of the reference algorithm of the specification: the four fixed
words, each full 8-byte block absorbed as a little-endian word, then the tail word
(remaining bytes low, `n mod 256` on top), then the finalization and `v0 ^ v1 ^ v2 ^ v3`. -/
theorem fiobj_sym_hash_eq_reference (b : List Byte) :
    fiobj_sym_hash (some b) b.length = some (Reference.fingerprint b) := by
  have h := (hash_eq_reference b []).1
  simpa using h

/-- C2 (the code at the failing input): a full block goes through `sip_local64` and comes out
as the little-endian word on both hosts, but for the one-byte input `61` the big-endian
build reads the tail scratch word `word.i` as `0x6100000000000001` where the little-endian
build reads `0x0100000000000061`, and the two builds return different hashes. -/
theorem fiobj_sym_hash_big_endian_tail :
    sip_local64 .big (native64 .big [1, 2, 3, 4, 5, 6, 7, 8]) =
        sip_local64 .little (native64 .little [1, 2, 3, 4, 5, 6, 7, 8]) ∧
      native64 .big [0x61, 0, 0, 0, 0, 0, 0, 1] = 0x6100000000000001 ∧
      native64 .little [0x61, 0, 0, 0, 0, 0, 0, 1] = 0x0100000000000061 ∧
      fiobj_sym_hash_on .big (some [0x61]) 1 = some 0x1eb3595936c1cb03 ∧
      fiobj_sym_hash_on .little (some [0x61]) 1 = some 0x2ba3e8e9a71148ca := by
  decide

/-- C3: for every byte sequence, `fiobj_sym_hash` returns standard SipHash-2-4 of it under
the key bytes `00 01 ... 0f`; the empty input hashes to `0x726fdb47dd0e0e31` and the
15-byte input `00 01 ... 0e` to `0xa129ca6149be45e5`, the published test vectors. -/
theorem fiobj_sym_hash_is_siphash_2_4 :
    (∀ b : List Byte,
        fiobj_sym_hash (some b) b.length = some (SipHash.siphash_2_4 SipHash.key_00_0f b)) ∧
      fiobj_sym_hash (some []) 0 = some 0x726fdb47dd0e0e31 ∧
      fiobj_sym_hash (some [0x00, 0x01, 0x02, 0x03, 0x04, 0x05, 0x06, 0x07, 0x08, 0x09, 0x0a,
        0x0b, 0x0c, 0x0d, 0x0e]) 15 = some 0xa129ca6149be45e5 := by
  refine ⟨?_, by decide, by decide⟩
  intro b
  have h := (hash_eq_reference b []).1
  rw [siphash_eq_reference]
  simpa using h

/-- C4: for every byte sequence `b` of length `n` (and every state of the heap),
`fiobj_sym_new(b, n)` returns a handle to an object of the symbol kind whose buffer holds `b`
(NUL-terminated), whose length is `n` and whose stored fingerprint is the value `h` of
`fiobj_sym_hash(b, n)`; `fiobj_sym_id` of that object is `h`. -/
theorem fiobj_sym_new_fingerprint (w : World) (b : List Byte) :
    ∃ (h sym : Nat) (w1 : World) (obj : fiobj_s),
      fiobj_sym_hash (some b) b.length = some h ∧
      fiobj_sym_new w (some b) b.length = some (sym, w1) ∧
      w1.deref sym = some obj ∧
      obj.type = .FIOBJ_T_SYMBOL ∧ obj.str = b ++ [0] ∧ obj.len = b.length ∧
      obj.hash = h ∧ fiobj_sym_id obj = h := by
  have hh := (hash_eq_reference b []).1
  have hn := fiobj_sym_new_eq w b []
  simp only [List.append_nil] at hh hn
  refine ⟨Reference.fingerprint b, w.heap.length, _, symbol_of b, hh, hn, ?_, rfl, rfl, rfl,
    rfl, ?_⟩
  · simp [World.deref]
  · simp [fiobj_sym_id, symbol_of]

/-- C5: for all objects `a` and `b`, `fiobj_sym_iseql(a, b)` is 1 exactly when both are of
the symbol kind and their stored fingerprints are equal, and it is 0 in every other case
(in particular whenever one of them is not a symbol). -/
theorem fiobj_sym_iseql_iff (a b : fiobj_s) :
    (fiobj_sym_iseql a b = 1 ↔
        a.type = .FIOBJ_T_SYMBOL ∧ b.type = .FIOBJ_T_SYMBOL ∧ a.hash = b.hash) ∧
      (¬ (a.type = .FIOBJ_T_SYMBOL ∧ b.type = .FIOBJ_T_SYMBOL ∧ a.hash = b.hash) →
        fiobj_sym_iseql a b = 0) := by
  unfold fiobj_sym_iseql
  by_cases ha : a.type = .FIOBJ_T_SYMBOL <;> by_cases hb : b.type = .FIOBJ_T_SYMBOL <;>
    by_cases hh : a.hash = b.hash <;> simp [ha, hb, hh]

/-- Witness of C5: a symbol against a number-kind object gives 0. -/
theorem fiobj_sym_iseql_iff_witness :
    fiobj_sym_iseql { type := .FIOBJ_T_SYMBOL, hash := 5, len := 0, str := [0] }
      { type := .FIOBJ_T_NUMBER, hash := 5, len := 0, str := [] } = 0 :=
  (fiobj_sym_iseql_iff _ _).2 (by decide)

/-- C6: for every byte sequence `b`, two successive calls `fiobj_sym_new(b, n)` return two
different handles whose objects have the same identifier, and `fiobj_sym_iseql` of the two
objects is 1. -/
theorem fiobj_sym_new_twice (w : World) (b : List Byte) :
    ∃ (p1 p2 : Nat) (w1 w2 : World) (s1 s2 : fiobj_s),
      fiobj_sym_new w (some b) b.length = some (p1, w1) ∧
      fiobj_sym_new w1 (some b) b.length = some (p2, w2) ∧
      p1 ≠ p2 ∧ w2.deref p1 = some s1 ∧ w2.deref p2 = some s2 ∧
      fiobj_sym_id s1 = fiobj_sym_id s2 ∧ fiobj_sym_iseql s1 s2 = 1 := by
  have h1 := fiobj_sym_new_eq w b []
  have h2 := fiobj_sym_new_eq
    { w with heap := w.heap ++ [symbol_of b], hashed := w.hashed + 1 } b []
  simp only [List.append_nil] at h1 h2
  refine ⟨_, _, _, _, symbol_of b, symbol_of b, h1, h2, ?_, ?_, ?_, rfl, ?_⟩
  · simp
  · exact heap_deref_first w.heap _ _
  · exact List.getElem?_concat_length _ _
  · simp [fiobj_sym_iseql, symbol_of]

/-- Witness of C6: the bytes of "hello", starting from the empty heap. -/
theorem fiobj_sym_new_twice_hello :
    ∃ (p1 p2 : Nat) (w1 w2 : World) (s1 s2 : fiobj_s),
      fiobj_sym_new (World.empty 0) (some [104, 101, 108, 108, 111]) 5 = some (p1, w1) ∧
      fiobj_sym_new w1 (some [104, 101, 108, 108, 111]) 5 = some (p2, w2) ∧
      p1 ≠ p2 ∧ w2.deref p1 = some s1 ∧ w2.deref p2 = some s2 ∧
      fiobj_sym_id s1 = fiobj_sym_id s2 ∧ fiobj_sym_iseql s1 s2 = 1 :=
  fiobj_sym_new_twice (World.empty 0) [104, 101, 108, 108, 111]

/-- C7: when the dry-run format length is negative, `fiobj_symvprintf` and `fiobj_symprintf`
return `NULL` and leave the world as it was: nothing is allocated (the heap is unchanged) and
no fingerprint is computed (the counter of hash calls is unchanged). -/
theorem fiobj_symvprintf_failure (F : Formatter Fmt Args) (w : World) (format : Fmt)
    (argv : Args) (hneg : F.dry_run format argv < 0) :
    fiobj_symvprintf F w format argv = some (none, w) ∧
      fiobj_symprintf F w format argv = some (none, w) :=
  ⟨fiobj_symvprintf_negative F w format argv hneg,
    fiobj_symvprintf_negative F w format argv hneg⟩

/-- Witness of C7: the malformed template "%" with no arguments. -/
theorem fiobj_symvprintf_failure_witness :
    printf_model.dry_run [37] [] < 0 ∧
      fiobj_symvprintf printf_model (World.empty 0) [37] [] = some (none, World.empty 0) ∧
      fiobj_symprintf printf_model (World.empty 0) [37] [] = some (none, World.empty 0) :=
  ⟨by decide, fiobj_symvprintf_failure printf_model (World.empty 0) [37] [] (by decide)⟩

/-- C8: when the dry-run format length is `n > 0` and the real format pass writes the `n`
bytes `out` (followed by the NUL), `fiobj_symvprintf` returns a handle to a symbol with
bytes `out`, length `n` and fingerprint `fiobj_sym_hash(out, n)`; handle and resulting world
are those of `fiobj_sym_new(out, n)`. -/
theorem fiobj_symvprintf_content (F : Formatter Fmt Args) (w : World) (format : Fmt)
    (argv : Args) (out : List Byte) (hpos : 0 < F.dry_run format argv)
    (hlen : (out.length : Int) = F.dry_run format argv)
    (hwrite : F.write format argv (out.length + 1) = out ++ [0]) :
    ∃ (h sym : Nat) (w1 : World) (obj : fiobj_s),
      fiobj_sym_hash (some out) out.length = some h ∧
      fiobj_symvprintf F w format argv = some (some sym, w1) ∧
      w1.deref sym = some obj ∧
      obj.type = .FIOBJ_T_SYMBOL ∧ obj.str = out ++ [0] ∧ obj.len = out.length ∧
      obj.hash = h ∧
      fiobj_sym_new w (some out) out.length = some (sym, w1) := by
  have hh := (hash_eq_reference out []).1
  have hn := fiobj_sym_new_eq w out []
  simp only [List.append_nil] at hh hn
  refine ⟨Reference.fingerprint out, w.heap.length, _, symbol_of out, hh,
    fiobj_symvprintf_positive F w format argv out hpos hlen hwrite, ?_, rfl, rfl, rfl, rfl, hn⟩
  exact List.getElem?_concat_length _ _

/-- Witness of C8: the template "%d-%d" with the arguments 1 and 2 writes "1-2"; the symbol
carries the fingerprint `fiobj_sym_hash("1-2", 3)`. -/
theorem fiobj_symvprintf_content_witness :
    0 < printf_model.dry_run [37, 100, 45, 37, 100] [1, 2] ∧
      printf_model.write [37, 100, 45, 37, 100] [1, 2] 4 = [49, 45, 50, 0] ∧
      ∃ (h sym : Nat) (w1 : World) (obj : fiobj_s),
        fiobj_sym_hash (some [49, 45, 50]) 3 = some h ∧
        fiobj_symvprintf printf_model (World.empty 0) [37, 100, 45, 37, 100] [1, 2] =
          some (some sym, w1) ∧
        w1.deref sym = some obj ∧
        obj.type = .FIOBJ_T_SYMBOL ∧ obj.str = [49, 45, 50, 0] ∧ obj.len = 3 ∧
        obj.hash = h ∧
        fiobj_sym_new (World.empty 0) (some [49, 45, 50]) 3 = some (sym, w1) :=
  ⟨by decide, by decide,
    fiobj_symvprintf_content printf_model (World.empty 0) [37, 100, 45, 37, 100] [1, 2]
      [49, 45, 50] (by decide) (by decide) (by decide)⟩

/-- C9: when the dry-run format length is exactly 0, `fiobj_symvprintf` returns a handle
(not `NULL`) to a symbol with empty content and fingerprint `fiobj_sym_hash(NULL, 0)`, and
`fiobj_sym_iseql` of that symbol and a symbol made by `fiobj_sym_new(str, 0)` (for any
region `str`, such as the literal `""`) is 1. -/
theorem fiobj_symvprintf_empty (F : Formatter Fmt Args) (w : World) (format : Fmt)
    (argv : Args) (str : List Byte) (hzero : F.dry_run format argv = 0) :
    ∃ (h sym sym2 : Nat) (w1 w2 : World) (obj obj2 : fiobj_s),
      fiobj_sym_hash none 0 = some h ∧
      fiobj_symvprintf F w format argv = some (some sym, w1) ∧
      w1.deref sym = some obj ∧
      obj.type = .FIOBJ_T_SYMBOL ∧ obj.str = [0] ∧ obj.len = 0 ∧ obj.hash = h ∧
      fiobj_sym_new w1 (some str) 0 = some (sym2, w2) ∧
      w2.deref sym = some obj ∧ w2.deref sym2 = some obj2 ∧
      fiobj_sym_iseql obj obj2 = 1 := by
  have hn := fiobj_sym_new_eq
    { w with heap := w.heap ++ [symbol_of []], hashed := w.hashed + 1 } [] str
  simp only [List.nil_append, List.length_nil] at hn
  refine ⟨Reference.fingerprint [], w.heap.length, _, _, _, symbol_of [], symbol_of [],
    hash_null_zero.1, fiobj_symvprintf_zero F w format argv hzero, ?_, rfl, rfl, rfl, rfl, hn,
    ?_, ?_, ?_⟩
  · exact List.getElem?_concat_length _ _
  · exact heap_deref_first w.heap _ _
  · exact List.getElem?_concat_length _ _
  · simp [fiobj_sym_iseql, symbol_of]

/-- Witness of C9: the empty template, compared with `fiobj_sym_new("", 0)`. -/
theorem fiobj_symvprintf_empty_witness :
    printf_model.dry_run [] [] = 0 ∧
      ∃ (h sym sym2 : Nat) (w1 w2 : World) (obj obj2 : fiobj_s),
        fiobj_sym_hash none 0 = some h ∧
        fiobj_symvprintf printf_model (World.empty 0) [] [] = some (some sym, w1) ∧
        w1.deref sym = some obj ∧
        obj.type = .FIOBJ_T_SYMBOL ∧ obj.str = [0] ∧ obj.len = 0 ∧ obj.hash = h ∧
        fiobj_sym_new w1 (some [0]) 0 = some (sym2, w2) ∧
        w2.deref sym = some obj ∧ w2.deref sym2 = some obj2 ∧
        fiobj_sym_iseql obj obj2 = 1 :=
  ⟨by decide, fiobj_symvprintf_empty printf_model (World.empty 0) [] [] [0] (by decide)⟩

/-- C10: `fiobj_sym_id(s)` is the stored fingerprint of `s` when `s` is of the symbol kind,
and 0 when `s` is of any other kind. -/
theorem fiobj_sym_id_spec (s : fiobj_s) :
    (s.type = .FIOBJ_T_SYMBOL → fiobj_sym_id s = s.hash) ∧
      (s.type ≠ .FIOBJ_T_SYMBOL → fiobj_sym_id s = 0) := by
  unfold fiobj_sym_id
  by_cases hs : s.type = .FIOBJ_T_SYMBOL <;> simp [hs]

/-- Witness of C10: a symbol with fingerprint 5 and a number-kind object. -/
theorem fiobj_sym_id_spec_witness :
    fiobj_sym_id { type := .FIOBJ_T_SYMBOL, hash := 5, len := 0, str := [0] } = 5 ∧
      fiobj_sym_id { type := .FIOBJ_T_NUMBER, hash := 5, len := 0, str := [] } = 0 :=
  ⟨(fiobj_sym_id_spec _).1 (by decide), (fiobj_sym_id_spec _).2 (by decide)⟩

/-- C11: with length 0, `fiobj_sym_hash` reads no byte: for every data argument (the null
pointer and the empty region included, where any read would fault) and on either host it
returns the same constant, the value obtained by absorbing the all-zero tail word into the
initial state and finalizing, which is `0x726fdb47dd0e0e31`. -/
theorem fiobj_sym_hash_empty (data : Ptr) :
    fiobj_sym_hash data 0 = some (sip_finalize (sip_absorb sip_init 0)) ∧
      fiobj_sym_hash data 0 = some 0x726fdb47dd0e0e31 ∧
      ∀ h : Host, fiobj_sym_hash_on h data 0 = fiobj_sym_hash none 0 := by
  have hgen : ∀ h : Host, fiobj_sym_hash_on h data 0 = fiobj_sym_hash_on h none 0 := by
    intro h
    simp [fiobj_sym_hash_on, block_loop, tail_switch]
  have hnull : ∀ h : Host, fiobj_sym_hash_on h none 0 = some 0x726fdb47dd0e0e31 := by
    intro h
    cases h <;> decide
  have hval : sip_finalize (sip_absorb sip_init 0) = 0x726fdb47dd0e0e31 := by decide
  refine ⟨?_, ?_, ?_⟩
  · rw [hval]
    exact (hgen .little).trans (hnull .little)
  · exact (hgen .little).trans (hnull .little)
  · intro h
    exact ((hgen h).trans (hnull h)).trans (hnull .little).symm

/-- C12: `fiobj_sym_hash("abc", 3)` differs from `fiobj_sym_hash("abd", 3)` and from
`fiobj_sym_hash("ab", 2)`; the three values are given. -/
theorem fiobj_sym_hash_sensitivity :
    fiobj_sym_hash (some [97, 98, 99]) 3 = some 0x5dbcfa53aa2007a5 ∧
      fiobj_sym_hash (some [97, 98, 100]) 3 = some 0x5cf36aa03f29b4c9 ∧
      fiobj_sym_hash (some [97, 98]) 2 = some 0x42452c099a0d2f3 ∧
      fiobj_sym_hash (some [97, 98, 99]) 3 ≠ fiobj_sym_hash (some [97, 98, 100]) 3 ∧
      fiobj_sym_hash (some [97, 98, 99]) 3 ≠ fiobj_sym_hash (some [97, 98]) 2 := by
  decide

/-- C13: the 7-byte, 8-byte and 9-byte prefixes of "abcdefghi" have three pairwise
different values of `fiobj_sym_hash` (the values are given), each of them the value of the
reference algorithm. -/
theorem fiobj_sym_hash_tail_boundary :
    fiobj_sym_hash (some [97, 98, 99, 100, 101, 102, 103]) 7 = some 0xdc18e8672ed188eb ∧
      fiobj_sym_hash (some [97, 98, 99, 100, 101, 102, 103, 104]) 8 = some 0xc329dda391d44470 ∧
      fiobj_sym_hash (some [97, 98, 99, 100, 101, 102, 103, 104, 105]) 9 = some 0xb2a9e1c46d9deca4 ∧
      Reference.fingerprint [97, 98, 99, 100, 101, 102, 103] = 0xdc18e8672ed188eb ∧
      Reference.fingerprint [97, 98, 99, 100, 101, 102, 103, 104] = 0xc329dda391d44470 ∧
      Reference.fingerprint [97, 98, 99, 100, 101, 102, 103, 104, 105] = 0xb2a9e1c46d9deca4 ∧
      (0xdc18e8672ed188eb : Nat) ≠ 0xc329dda391d44470 ∧ (0xc329dda391d44470 : Nat) ≠ 0xb2a9e1c46d9deca4 ∧ (0xdc18e8672ed188eb : Nat) ≠ 0xb2a9e1c46d9deca4 := by
  decide

/-- C14: the converse of determinism fails: there are two different byte sequences of length
9 on which `fiobj_sym_hash` returns the same value (there are more such sequences than 64 bit
values), and the two symbols made from them by `fiobj_sym_new` are equal for
`fiobj_sym_iseql` although their contents differ. -/
theorem fiobj_sym_hash_not_injective :
    ∃ b1 b2 : List Byte, b1.length = 9 ∧ b2.length = 9 ∧ b1 ≠ b2 ∧
      (∃ h : Nat, fiobj_sym_hash (some b1) b1.length = some h ∧
        fiobj_sym_hash (some b2) b2.length = some h) ∧
      ∀ w : World, ∃ (p1 p2 : Nat) (w1 w2 : World) (s1 s2 : fiobj_s),
        fiobj_sym_new w (some b1) b1.length = some (p1, w1) ∧
        fiobj_sym_new w1 (some b2) b2.length = some (p2, w2) ∧
        w2.deref p1 = some s1 ∧ w2.deref p2 = some s2 ∧
        s1.str ≠ s2.str ∧ fiobj_sym_iseql s1 s2 = 1 := by
  obtain ⟨b1, b2, hl1, hl2, hne, heq⟩ := fingerprint_collision
  have hh1 := (hash_eq_reference b1 []).1
  have hh2 := (hash_eq_reference b2 []).1
  simp only [List.append_nil] at hh1 hh2
  refine ⟨b1, b2, hl1, hl2, hne, ⟨Reference.fingerprint b1, hh1, by rw [heq]; exact hh2⟩, ?_⟩
  intro w
  have n1 := fiobj_sym_new_eq w b1 []
  have n2 := fiobj_sym_new_eq
    { w with heap := w.heap ++ [symbol_of b1], hashed := w.hashed + 1 } b2 []
  simp only [List.append_nil] at n1 n2
  refine ⟨_, _, _, _, symbol_of b1, symbol_of b2, n1, n2, ?_, ?_, ?_, ?_⟩
  · exact heap_deref_first w.heap _ _
  · exact List.getElem?_concat_length _ _
  · intro h
    simp only [symbol_of] at h
    exact hne (List.append_cancel_right h)
  · simp [fiobj_sym_iseql, symbol_of, heq]

/-- C15: the tail mix is unconditional: every input of length `n` is absorbed as exactly
`n / 8 + 1` words, the words of its full blocks followed by the tail word, each with
`v3 ^= word`, two rounds, `v0 ^= word`, before the finalization; when `n` is a multiple of
8 (0 included) the tail word is `(n mod 256) * 2 ^ 56`. -/
theorem fiobj_sym_hash_tail_unconditional (b : List Byte) :
    fiobj_sym_hash (some b) b.length =
        some (sip_finalize ((absorbed_words b).foldl sip_absorb sip_init)) ∧
      (absorbed_words b).length = b.length / 8 + 1 ∧
      (b.length % 8 = 0 →
        (block_words b).length = b.length / 8 ∧
        absorbed_words b = block_words b ++ [(b.length % 256) * 2 ^ 56] ∧
        fiobj_sym_hash (some b) b.length =
          some (sip_finalize (sip_absorb ((block_words b).foldl sip_absorb sip_init)
            ((b.length % 256) * 2 ^ 56)))) := by
  obtain ⟨hh, hl⟩ := hash_eq_absorbed_words b
  refine ⟨hh, hl, ?_⟩
  intro h8
  have hdrop : b.drop (8 * (b.length / 8)) = [] := by
    apply List.drop_eq_nil_of_le
    omega
  have hwords : absorbed_words b = block_words b ++ [(b.length % 256) * 2 ^ 56] := by
    simp [absorbed_words, hdrop, Reference.tail_word, le_value]
  refine ⟨(full_blocks_words b.length b sip_init (le_refl _) sip_init_inRange).2.2, hwords, ?_⟩
  rw [hh, hwords, List.foldl_append, List.foldl_cons, List.foldl_nil]

/-- Witness of C15: an input of exactly 8 bytes is absorbed as its block word and then the
tail word `8 * 2 ^ 56`. -/
theorem fiobj_sym_hash_tail_unconditional_witness :
    [1, 2, 3, 4, 5, 6, 7, 8].length % 8 = 0 ∧
      fiobj_sym_hash (some [1, 2, 3, 4, 5, 6, 7, 8]) 8 =
        some (sip_finalize (sip_absorb (sip_absorb sip_init 0x0807060504030201)
          (8 * 2 ^ 56))) :=
  ⟨by decide,
    ((fiobj_sym_hash_tail_unconditional [1, 2, 3, 4, 5, 6, 7, 8]).2.2 (by decide)).2.2⟩

/-- C16: `fiobj_sym_hash(data, len)` depends only on `len` and on the first `len` bytes of
`data`: two regions of at least `len` bytes that agree on their first `len` bytes give the
same value, and the value is the one obtained on the region cut down to exactly `len` bytes,
where a read at an index `>= len` would fault; so no such read is made. -/
theorem fiobj_sym_hash_prefix_only (d1 d2 : List Byte) (len : Nat)
    (h1 : len ≤ d1.length) (h2 : len ≤ d2.length) (hagree : d1.take len = d2.take len) :
    fiobj_sym_hash (some d1) len = fiobj_sym_hash (some d2) len ∧
      fiobj_sym_hash (some d1) len = fiobj_sym_hash (some (d1.take len)) len ∧
      fiobj_sym_hash (some d1) len = some (Reference.fingerprint (d1.take len)) := by
  have key : ∀ d : List Byte, len ≤ d.length →
      fiobj_sym_hash (some d) len = some (Reference.fingerprint (d.take len)) := by
    intro d hd
    have h := (hash_eq_reference (d.take len) (d.drop len)).1
    rw [List.take_append_drop, List.length_take, Nat.min_eq_left hd] at h
    exact h
  have hcut : fiobj_sym_hash (some (d1.take len)) len =
      some (Reference.fingerprint (d1.take len)) := by
    have h := key (d1.take len) (by rw [List.length_take]; omega)
    rw [List.take_take, Nat.min_self] at h
    exact h
  refine ⟨?_, ?_, key d1 h1⟩
  · rw [key d1 h1, key d2 h2, hagree]
  · rw [key d1 h1, hcut]

/-- Witness of C16: the buffer "1-2" followed by its NUL, and the same three bytes followed by
other bytes. -/
theorem fiobj_sym_hash_prefix_only_witness :
    fiobj_sym_hash (some [49, 45, 50, 0]) 3 = fiobj_sym_hash (some [49, 45, 50, 7, 7]) 3 ∧
      fiobj_sym_hash (some [49, 45, 50, 0]) 3 =
        fiobj_sym_hash (some (List.take 3 [49, 45, 50, 0])) 3 ∧
      fiobj_sym_hash (some [49, 45, 50, 0]) 3 =
        some (Reference.fingerprint (List.take 3 [49, 45, 50, 0])) :=
  fiobj_sym_hash_prefix_only [49, 45, 50, 0] [49, 45, 50, 7, 7] 3 (by decide) (by decide)
    (by decide)

/-- C17: one mixing round is a bijection on the states of four 64 bit words:
`hash_map_SipRound_inv` maps such states to such states and undoes `hash_map_SipRound` on
both sides, so the round is injective, and absorbing the same word into two different
states gives two different states. -/
theorem hash_map_SipRound_bijection (s t : SipState) (m : Nat) (hs : s.InRange)
    (ht : t.InRange) (hm : m < 2 ^ 64) :
    (hash_map_SipRound s).InRange ∧ (hash_map_SipRound_inv s).InRange ∧
      hash_map_SipRound_inv (hash_map_SipRound s) = s ∧
      hash_map_SipRound (hash_map_SipRound_inv s) = s ∧
      (hash_map_SipRound s = hash_map_SipRound t → s = t) ∧
      (sip_absorb s m = sip_absorb t m → s = t) :=
  ⟨hash_map_SipRound_inRange s hs, hash_map_SipRound_inv_inRange s hs,
    hash_map_SipRound_inv_left s hs, hash_map_SipRound_inv_right s hs,
    hash_map_SipRound_injective s t hs ht, sip_absorb_injective s t m hs ht hm⟩

/-- Witness of C17: the initial state is recovered from its image under one round, and is
the image of its image under the inverse round. -/
theorem hash_map_SipRound_bijection_witness :
    hash_map_SipRound_inv (hash_map_SipRound sip_init) = sip_init ∧
      hash_map_SipRound (hash_map_SipRound_inv sip_init) = sip_init :=
  ⟨(hash_map_SipRound_bijection sip_init { v0 := 0, v1 := 0, v2 := 0, v3 := 0 } 0
      sip_init_inRange ⟨by decide, by decide, by decide, by decide⟩ (by decide)).2.2.1,
    (hash_map_SipRound_bijection sip_init { v0 := 0, v1 := 0, v2 := 0, v3 := 0 } 0
      sip_init_inRange ⟨by decide, by decide, by decide, by decide⟩ (by decide)).2.2.2.1⟩

/-- C18: `fiobj_sym_iseql` is symmetric and transitive on all objects, and
`fiobj_sym_iseql(a, a)` is 1 exactly when `a` is of the symbol kind (it is 0 for an object
of any other kind). -/
theorem fiobj_sym_iseql_equivalence (a b c : fiobj_s) :
    fiobj_sym_iseql a b = fiobj_sym_iseql b a ∧
      (fiobj_sym_iseql a b = 1 → fiobj_sym_iseql b c = 1 → fiobj_sym_iseql a c = 1) ∧
      (fiobj_sym_iseql a a = 1 ↔ a.type = .FIOBJ_T_SYMBOL) ∧
      (a.type ≠ .FIOBJ_T_SYMBOL → fiobj_sym_iseql a a = 0) := by
  unfold fiobj_sym_iseql
  by_cases ha : a.type = .FIOBJ_T_SYMBOL <;> by_cases hb : b.type = .FIOBJ_T_SYMBOL <;>
    by_cases hc : c.type = .FIOBJ_T_SYMBOL <;> by_cases hab : a.hash = b.hash <;>
    by_cases hbc : b.hash = c.hash <;> simp [ha, hb, hc, hab, hbc, eq_comm]

/-- Witness of C18: three symbols with the same fingerprint and different contents are
related transitively, and a number-kind object is not related to itself. -/
theorem fiobj_sym_iseql_equivalence_witness :
    fiobj_sym_iseql { type := .FIOBJ_T_SYMBOL, hash := 5, len := 1, str := [1, 0] }
        { type := .FIOBJ_T_SYMBOL, hash := 5, len := 1, str := [3, 0] } = 1 ∧
      fiobj_sym_iseql { type := .FIOBJ_T_NUMBER, hash := 5, len := 0, str := [] }
        { type := .FIOBJ_T_NUMBER, hash := 5, len := 0, str := [] } = 0 :=
  ⟨(fiobj_sym_iseql_equivalence
      { type := .FIOBJ_T_SYMBOL, hash := 5, len := 1, str := [1, 0] }
      { type := .FIOBJ_T_SYMBOL, hash := 5, len := 1, str := [2, 0] }
      { type := .FIOBJ_T_SYMBOL, hash := 5, len := 1, str := [3, 0] }).2.1
      (by decide) (by decide),
    (fiobj_sym_iseql_equivalence
      { type := .FIOBJ_T_NUMBER, hash := 5, len := 0, str := [] }
      { type := .FIOBJ_T_NUMBER, hash := 5, len := 0, str := [] }
      { type := .FIOBJ_T_NUMBER, hash := 5, len := 0, str := [] }).2.2.2 (by decide)⟩

end FiobjSym
